import Mathlib

/-!
Verification of the reading-progress ledger and statistics engine of the
obsidian reading tracker plugin.  The TypeScript sources are shallowly
embedded here: document text is modelled as `List Char`, the dynamic
key/value metadata header as an association list of a tagged value type,
and every function is translated from the corresponding source function
(`FrontmatterProcessor` in `src/utils/frontmatter.ts`,
`FrontmatterConverter` in `src/services/frontmatterService/frontmatterParser.ts`,
and `StatisticsBasesView.calculateStatistics`).  The regular expressions of
the source are translated into explicit backtracking searches that follow
the exact matching semantics of JavaScript regexes (in particular the
multiline flag, under which `$` matches before every line break).
Date/clock access (`getCurrentDateTime`, `Date#toISOString`) is injected as
explicit parameters.
-/

set_option maxRecDepth 40000

/-- Document text is a list of characters (UTF-16ish; all inputs here are ASCII). -/
abbrev Str := List Char

/-- The ASCII part of the JavaScript whitespace class `\s`
(space, tab, line feed, carriage return, vertical tab, form feed).
The sources only ever deal with these. -/
def isWsChar (c : Char) : Bool :=
  c = ' ' || c = '\t' || c = '\n' || c = '\r' || c = '\x0b' || c = '\x0c'

/-- JavaScript `String#trim`. -/
def jsTrim (s : Str) : Str :=
  ((s.dropWhile isWsChar).reverse.dropWhile isWsChar).reverse

/-- JavaScript `String#split(sep)` for a single-character separator.
Always returns a non-empty list of separator-free pieces. -/
def splitOnChar (sep : Char) : Str → List Str
  | [] => [[]]
  | c :: cs =>
    match splitOnChar sep cs with
    | [] => [[c]]
    | h :: t => if c = sep then [] :: h :: t else (c :: h) :: t

/-- JavaScript `Array#join(sep)` for a single-character separator. -/
def joinChar (sep : Char) : List Str → Str
  | [] => []
  | [x] => x
  | x :: xs => x ++ sep :: joinChar sep xs

/-- JavaScript `Array#join(sep)` for a multi-character separator. -/
def joinStr (sep : Str) : List Str → Str
  | [] => []
  | [x] => x
  | x :: xs => x ++ sep ++ joinStr sep xs

/-- Does `s` start with the pattern `p` (JavaScript `String#startsWith`). -/
def startsWithS : Str → Str → Bool
  | _, [] => true
  | [], _ :: _ => false
  | c :: cs, p :: ps => c = p && startsWithS cs ps

/-- Does `s` end with the pattern `p` (JavaScript `String#endsWith`). -/
def endsWithS (s p : Str) : Bool :=
  startsWithS s.reverse p.reverse

/-- Index of the first occurrence of `c` (JavaScript `String#indexOf`),
`none` for `-1`. -/
def firstIdxOf (c : Char) : Str → Option Nat
  | [] => none
  | d :: ds =>
    if d = c then some 0
    else (firstIdxOf c ds).map (· + 1)

/-- JavaScript `String#slice(1, -1)`: drop the first and the last character. -/
def sliceInner (s : Str) : Str :=
  (s.drop 1).dropLast

/-- ASCII decimal digit test (the character class `\d`). -/
def isDigitChar (c : Char) : Bool :=
  '0' ≤ c && c ≤ '9'

/-- The test `/^\d+$/.test(s)`: `s` is a non-empty run of digits. -/
def allDigits (s : Str) : Bool :=
  !s.isEmpty && s.all isDigitChar

/-- The test `/^\d+\.\d+$/.test(s)`: digits, one dot, digits. -/
def decimalLit (s : Str) : Bool :=
  match splitOnChar '.' s with
  | [a, b] => allDigits a && allDigits b
  | _ => false

/-- ASCII lower-casing, for the case-insensitive (`/i`) field regexes. -/
def lowerChar (c : Char) : Char :=
  if 'A' ≤ c && c ≤ 'Z' then Char.ofNat (c.toNat + 32) else c

/-- Numeric value of a digit character. -/
def charDigitVal (c : Char) : Nat := c.toNat - 48

/-- `parseInt(s, 10)` on a string of decimal digits. -/
def parseNatDigits (s : Str) : Nat :=
  s.foldl (fun acc c => acc * 10 + charDigitVal c) 0

/-- Base-10 digits of `n`, least significant first, with explicit fuel so
that the kernel can evaluate it (`natDigitsAux n n = Nat.digits 10 n`). -/
def natDigitsAux : Nat → Nat → List Nat
  | 0, _ => []
  | _ + 1, 0 => []
  | fuel + 1, n + 1 => ((n + 1) % 10) :: natDigitsAux fuel ((n + 1) / 10)

/-- JavaScript `String(n)` for a natural number: most-significant digit first. -/
def natToStr (n : Nat) : Str :=
  if n = 0 then ['0'] else ((natDigitsAux n n).map Nat.digitChar).reverse

/-- JavaScript `String(n)` for an integer. -/
def intToStr (n : Int) : Str :=
  if n < 0 then '-' :: natToStr n.natAbs else natToStr n.toNat

/-- Scalar values of the dynamic metadata mapping: strings, numbers,
booleans.  Integral and decimal numbers are split in two constructors;
the decimal constructor stores the literal produced by the
`/^\d+\.\d+$/` branch of the parser (double precision artifacts of
`parseFloat` are not modelled; no claim involves decimal numbers). -/
inductive Prim where
  | pStr (s : Str)
  | pNum (n : Int)
  | pFlt (lit : Str)
  | pBool (b : Bool)
  deriving DecidableEq

/-- A `reading_history_summary` record as it flows through the sources:
the five optional fields that `updateReadingProgress` writes and
`createFrontmatter` reads back (`date`, `startPage`, `endPage`,
`pagesRead`, `timestamp`). -/
structure SumRec where
  date : Option Prim := none
  startPage : Option Prim := none
  endPage : Option Prim := none
  pagesRead : Option Prim := none
  timestamp : Option Prim := none
  deriving DecidableEq

/-- The value universe of the metadata mapping, covering every shape a
value takes in the sources: scalars, arrays of scalars (from bracketed
lists) and arrays of summary records (the reserved
`reading_history_summary` field).  Mixed arrays cannot be represented;
the sources never build one. -/
inductive Val where
  | vStr (s : Str)
  | vNum (n : Int)
  | vFlt (lit : Str)
  | vBool (b : Bool)
  | vList (items : List Prim)
  | vRecs (items : List SumRec)
  deriving DecidableEq

/-- A parsed frontmatter object: insertion-ordered key/value pairs
(JavaScript object semantics: one binding per key). -/
abbrev Fm := List (Str × Val)

/-- Property access `fm[k]`: the binding of the first (only) occurrence. -/
def fmGet (fm : Fm) (k : Str) : Option Val :=
  match fm with
  | [] => none
  | (k0, v0) :: rest => if k0 = k then some v0 else fmGet rest k

/-- Property assignment `fm[k] = v`: updates in place, or appends a new
binding at the end (JavaScript insertion-order semantics). -/
def fmSet (fm : Fm) (k : Str) (v : Val) : Fm :=
  match fm with
  | [] => [(k, v)]
  | (k0, v0) :: rest => if k0 = k then (k0, v) :: rest else (k0, v0) :: fmSet rest k v

/-- A decimal literal denotes zero when all its digits are `0`. -/
def fltIsZero (lit : Str) : Bool :=
  lit.all (fun c => c = '0' || c = '.')

/-- JavaScript truthiness of a primitive. -/
def primTruthy : Prim → Bool
  | .pStr s => !s.isEmpty
  | .pNum n => n ≠ 0
  | .pFlt lit => !fltIsZero lit
  | .pBool b => b

/-- JavaScript truthiness of a value (arrays are always truthy). -/
def jsTruthy : Val → Bool
  | .vStr s => !s.isEmpty
  | .vNum n => n ≠ 0
  | .vFlt lit => !fltIsZero lit
  | .vBool b => b
  | .vList _ => true
  | .vRecs _ => true

/-- Truthiness of an optional property (`undefined` is falsy). -/
def jsTruthyOpt : Option Val → Bool
  | some v => jsTruthy v
  | none => false

/-- JavaScript `String(p)` for a primitive. -/
def jsPrimToString : Prim → Str
  | .pStr s => s
  | .pNum n => intToStr n
  | .pFlt lit => lit
  | .pBool true => "true".toList
  | .pBool false => "false".toList

/-- The string `JSON.stringify`/`String` produces for a plain object. -/
def objectString : Str := "[object Object]".toList

/-- JavaScript `String(v)`: arrays stringify to their comma-joined elements. -/
def jsValToString : Val → Str
  | .vStr s => s
  | .vNum n => intToStr n
  | .vFlt lit => lit
  | .vBool true => "true".toList
  | .vBool false => "false".toList
  | .vList ps => joinChar ',' (ps.map jsPrimToString)
  | .vRecs rs => joinChar ',' (rs.map (fun _ => objectString))

/-! ## Metadata block codec (`FrontmatterProcessor.parseFrontmatter` /
`createFrontmatter` / `extractFrontmatter`, src/utils/frontmatter.ts).

The header is delimited by the regex `/^---\s*\n([\s\S]*?)\n---\s*\n/`.
The search below reproduces the backtracking behaviour of that regex:
the greedy `\s*\n` steps produce their candidate splits longest-first,
and the lazy group grows shortest-first. -/

/-- Candidate remainders after matching `\s*\n` at the head of `s`,
in greedy (longest `\s*` first) order: each candidate is the text after
a `\n` that is preceded only by whitespace. -/
def wsNlSplits : Str → List Str
  | [] => []
  | c :: cs =>
    if isWsChar c then
      (wsNlSplits cs) ++ (if c = '\n' then [cs] else [])
    else []

/-- Try every candidate in order, returning the first full match. -/
def firstSome {α β : Type} (f : α → Option β) : List α → Option β
  | [] => none
  | a :: as =>
    match f a with
    | some b => some b
    | none => firstSome f as

/-- Matching `\n---\s*\n` at the head of `u`: returns the remainder after
the match (the regex ends here, so only the greedy-first `\s*` split is
relevant). -/
def termRest (u : Str) : Option Str :=
  match u with
  | '\n' :: '-' :: '-' :: '-' :: v => (wsNlSplits v).head?
  | _ => none

/-- The lazy group `([\s\S]*?)` followed by `\n---\s*\n`: grow the capture
one character at a time until the terminator matches; returns the capture
and the remainder after the whole match. -/
def groupScan : Str → Option (Str × Str)
  | [] => none
  | c :: cs =>
    match termRest (c :: cs) with
    | some rest => some ([], rest)
    | none => (groupScan cs).map (fun p => (c :: p.1, p.2))

/-- The frontmatter envelope regex `/^---\s*\n([\s\S]*?)\n---\s*\n/`
(anchored at the start of the document): returns the captured group and
the text after the match. -/
def envExtract (content : Str) : Option (Str × Str) :=
  if startsWithS content ("---".toList) then
    firstSome groupScan (wsNlSplits (content.drop 3))
  else none

def quoteChar : Str := ['\"']

def apostChar : Str := ['\x27']

/-- One comma-separated item of a bracketed list: trimmed, with one layer
of surrounding quotes removed. -/
def parseArrayItem (item : Str) : Prim :=
  let t := jsTrim item
  if (startsWithS t quoteChar && endsWithS t quoteChar)
      || (startsWithS t apostChar && endsWithS t apostChar) then
    .pStr (sliceInner t)
  else .pStr t

def keyReadingHistory : Str := "reading_history".toList

def keySummary : Str := "reading_history_summary".toList

/-- Processing of one line of the header block, updating the accumulated
mapping (the loop body of `parseFrontmatter`). -/
def parseLine (fm : Fm) (line : Str) : Fm :=
  let t := jsTrim line
  if t.isEmpty then fm
  else if startsWithS t ("#".toList) then fm
  else
    match firstIdxOf ':' t with
    | none => fm
    | some ci =>
      let key := jsTrim (t.take ci)
      let v0 := jsTrim (t.drop (ci + 1))
      -- remove one layer of surrounding quotes if present
      let v1 := if (startsWithS v0 quoteChar && endsWithS v0 quoteChar)
          || (startsWithS v0 apostChar && endsWithS v0 apostChar) then
        sliceInner v0
      else v0
      -- bracketed comma lists become scalar arrays
      let val : Val :=
        if startsWithS v1 ("[".toList) && endsWithS v1 ("]".toList) then
          let inner := jsTrim (sliceInner v1)
          if inner.isEmpty then .vList []
          else .vList ((splitOnChar ',' inner).map parseArrayItem)
        else .vStr v1
      -- reading_history is skipped (stored in the body, not the header)
      if key = keyReadingHistory then fm
      -- reading_history_summary is forced to an array
      else if key = keySummary then
        match val with
        | .vList ps => fmSet fm key (.vList ps)
        | _ => fmSet fm key (.vList [])
      else
        -- numeric coercion; the test stringifies arrays (JS `RegExp#test`
        -- coerces its argument), so a one-element array of digits
        -- becomes a number
        let sv := jsValToString val
        let val2 : Val :=
          if allDigits sv then .vNum (parseNatDigits sv)
          else if decimalLit sv then .vFlt sv
          else val
        -- boolean coercion (strict string comparison)
        let val3 : Val :=
          match val2 with
          | .vStr s =>
            if s = ("true".toList) then .vBool true
            else if s = ("false".toList) then .vBool false
            else val2
          | _ => val2
        fmSet fm key val3

/-- `FrontmatterProcessor.parseFrontmatter`: extract the header block and
fold the line parser over its lines.  An absent or empty header yields the
empty mapping. -/
def parseFrontmatter (content : Str) : Fm :=
  match envExtract content with
  | none => []
  | some (g, _) =>
    if g.isEmpty then []
    else (splitOnChar '\n' g).foldl parseLine []

/-- `FrontmatterProcessor.extractFrontmatter`: the parsed header plus the
body (the text after the envelope match). -/
def extractFrontmatter (content : Str) : Fm × Str :=
  match envExtract content with
  | none => ([], content)
  | some (_, rest) => (parseFrontmatter content, rest)

/-- Escape double quotes in a serialized string value
(`value.replace(/"/g, '\\"')`). -/
def escQuotes (s : Str) : Str :=
  s.flatMap (fun c => if c = '\"' then ['\\', '\"'] else [c])

/-- Minimal `JSON.stringify` for a summary record (only reached for
object arrays outside the reserved key; never reached on the flows the
claims exercise). -/
def jsonOfRec (r : SumRec) : Str :=
  let fields : List (Str × Option Prim) :=
    [(("date".toList), r.date), (("startPage".toList), r.startPage),
     (("endPage".toList), r.endPage), (("pagesRead".toList), r.pagesRead),
     (("timestamp".toList), r.timestamp)]
  let pr : Prim → Str := fun p =>
    match p with
    | .pStr s => '\"' :: s ++ ['\"']
    | _ => jsPrimToString p
  let parts := (fields.filterMap (fun kv =>
    match kv.2 with
    | some p => some ('\"' :: kv.1 ++ '\"' :: ':' :: pr p)
    | none => none))
  ['\x7b'] ++ joinChar ',' parts ++ ['\x7d']

/-- The lines serializing one summary record inside the reserved
`reading_history_summary` block (`item.date || ''`, `item.x ?? 0`,
timestamp only when truthy). -/
def summaryRecLines (r : SumRec) : List Str :=
  let dateStr : Str :=
    match r.date with
    | some p => if primTruthy p then jsPrimToString p else []
    | none => []
  let numStr : Option Prim → Str := fun o =>
    match o with
    | some p => jsPrimToString p
    | none => ['0']
  [("  - date: \"".toList) ++ dateStr ++ quoteChar,
   ("    startPage: ".toList) ++ numStr r.startPage,
   ("    endPage: ".toList) ++ numStr r.endPage,
   ("    pagesRead: ".toList) ++ numStr r.pagesRead]
  ++ (match r.timestamp with
      | some p =>
        if primTruthy p then [("    timestamp: \"".toList) ++ jsPrimToString p ++ quoteChar]
        else []
      | none => [])

/-- The serialized lines of one mapping entry (the loop body of
`createFrontmatter`, src/utils/frontmatter.ts second revision). -/
def entryLines (kv : Str × Val) : List Str :=
  let k := kv.1
  match kv.2 with
  | .vList [] =>
    if k = keySummary then [k ++ (": []".toList)] else []
  | .vRecs [] =>
    if k = keySummary then [k ++ (": []".toList)] else []
  | .vRecs items =>
    if k = keySummary then
      -- all items are objects, so the filter keeps them all
      (k ++ [':']) :: items.flatMap summaryRecLines
    else if k = keyReadingHistory then []
    else (k ++ [':']) :: items.map (fun r => ("  - ".toList) ++ jsonOfRec r)
  | .vList items =>
    if k = keyReadingHistory then []
    else
      let rendered := items.map (fun p =>
        match p with
        | .pStr s => '\"' :: s ++ ['\"']
        | _ => jsPrimToString p)
      [k ++ ':' :: ' ' :: '[' :: joinStr (", ".toList) rendered ++ [']']]
  | .vStr s => [k ++ ':' :: ' ' :: '\"' :: escQuotes s ++ ['\"']]
  | .vNum n => [k ++ ':' :: ' ' :: intToStr n]
  | .vFlt lit => [k ++ ':' :: ' ' :: lit]
  | .vBool b => [k ++ ':' :: ' ' :: jsValToString (.vBool b)]

/-- `FrontmatterProcessor.createFrontmatter`: the `---`-delimited header
text (no trailing newline; callers append `\n` before the body). -/
def createFrontmatter (data : Fm) : Str :=
  joinChar '\n' ((("---".toList) : Str) :: (data.flatMap entryLines) ++ [("---".toList)])

/-! ## Reading history ledger (`FrontmatterProcessor.parseReadingHistoryFromBody`,
`updateReadingHistoryInBody`, `updateReadingProgress`).

The section regexes all carry the `m` flag, under which `$` matches before
every line break; since `$` is one of the lookahead alternatives
(`(?=\n##|\n#|$)` and `(?=\n(?:###|-\s+\*\*Date:)|$)`), the lazy captures
stop at the first line end after the match head. -/

/-- A detailed reading session (`ReadingRecord`, src/models/readingRecord). -/
structure ReadingRecord where
  date : Str
  startPage : Int
  endPage : Int
  pagesRead : Int
  notes : Option Str
  timestamp : Option Str
  deriving DecidableEq

/-- Lookahead `(?=\n##|\n#|$)` with the `m` flag (the `$` alternative
matches before every newline and at the end of input). -/
def sectionLook (u : Str) : Bool :=
  startsWithS u ("\n##".toList) || startsWithS u ("\n#".toList)
    || u.isEmpty || startsWithS u ("\n".toList)

/-- The lazy capture `([\s\S]*?)` before `sectionLook`: grows until the
lookahead holds; always succeeds.  Returns (capture, rest). -/
def capScan : Str → (Str × Str)
  | [] => ([], [])
  | c :: cs =>
    if sectionLook (c :: cs) then ([], c :: cs)
    else
      let p := capScan cs
      (c :: p.1, p.2)

/-- Try `^##\s+Reading History\s*\n` followed by the lazy capture at the
head of `u`.  The literal after `\s+` starts with a non-space character,
so the greedy `\s+` always consumes the entire whitespace run; the greedy
`\s*\n` takes its longest split (later steps never fail, so no
backtracking into it occurs). -/
def secTryAt (u : Str) : Option (Str × Str) :=
  if startsWithS u ("##".toList) then
    let after := u.drop 2
    let run := after.takeWhile isWsChar
    if run.isEmpty then none
    else
      let rest := after.drop run.length
      if startsWithS rest ("Reading History".toList) then
        ((wsNlSplits (rest.drop 15)).head?).map capScan
      else none
  else none

/-- Scan for the section regex at every line start (the `^` under the `m`
flag matches at position 0 and after every newline); returns
(textBeforeMatch, capture, textAfterMatch). -/
def secScan : Str → Bool → Option (Str × Str × Str)
  | [], atStart =>
    if atStart then (secTryAt []).map (fun p => (([] : Str), p.1, p.2)) else none
  | c :: cs, atStart =>
    match (if atStart then secTryAt (c :: cs) else none) with
    | some p => some ([], p.1, p.2)
    | none => (secScan cs (c = '\n')).map (fun p => (c :: p.1, p.2.1, p.2.2))

/-- First match of `/^##\s+Reading History\s*\n([\s\S]*?)(?=\n##|\n#|$)/m`
in `body`: (before, capture, after). -/
def secSearch (body : Str) : Option (Str × Str × Str) :=
  secScan body true

/-- Parse `\d{4}-\d{2}-\d{2}` at the head of `u`. -/
def dateAt : Str → Option (Str × Str)
  | a :: b :: c :: d :: s1 :: e :: f :: s2 :: g :: h :: rest =>
    if isDigitChar a && isDigitChar b && isDigitChar c && isDigitChar d
        && s1 = '-' && isDigitChar e && isDigitChar f && s2 = '-'
        && isDigitChar g && isDigitChar h then
      some ([a, b, c, d, s1, e, f, s2, g, h], rest)
    else none
  | _ => none

/-- Lookahead `(?=\n(?:###|-\s+\*\*Date:)|$)` with the `m` flag. -/
def recLook (u : Str) : Bool :=
  startsWithS u ("\n###".toList)
    || (match u with
        | '\n' :: '-' :: v =>
          let run := v.takeWhile isWsChar
          !run.isEmpty && startsWithS (v.drop run.length) ("**Date:".toList)
        | _ => false)
    || u.isEmpty || startsWithS u ("\n".toList)

/-- The lazy record-text capture before `recLook`. -/
def recCapScan : Str → (Str × Str)
  | [] => ([], [])
  | c :: cs =>
    if recLook (c :: cs) then ([], c :: cs)
    else
      let p := recCapScan cs
      (c :: p.1, p.2)

/-- Try one record head at the current line start: either
`###\s+(date)` or `-\s+\*\*Date:\*\*\s+(date)`, then `\s*\n` and the lazy
capture.  Returns (date, recordText, rest). -/
def recTryAt (u : Str) : Option (Str × Str × Str) :=
  let tail : Str → Option (Str × Str × Str) := fun afterHead =>
    match dateAt afterHead with
    | none => none
    | some (d, rest2) =>
      ((wsNlSplits rest2).head?).map (fun r =>
        let p := recCapScan r
        (d, p.1, p.2))
  let tryA : Option (Str × Str × Str) :=
    if startsWithS u ("###".toList) then
      let after := u.drop 3
      let run := after.takeWhile isWsChar
      if run.isEmpty then none else tail (after.drop run.length)
    else none
  match tryA with
  | some p => some p
  | none =>
    if startsWithS u ("-".toList) then
      let after := u.drop 1
      let run := after.takeWhile isWsChar
      if run.isEmpty then none
      else
        let rest := after.drop run.length
        if startsWithS rest ("**Date:**".toList) then
          let after2 := rest.drop 9
          let run2 := after2.takeWhile isWsChar
          if run2.isEmpty then none else tail (after2.drop run2.length)
        else none
    else none

/-- The `while (recordMatch = recordRegex.exec(historyContent))` loop: scan
for record heads at line starts, resuming after each match (`lastIndex`).
The position after a match is a line start exactly when the capture was
empty (a non-empty capture ends just before a newline).  Every step
consumes at least one character of the text, so fuel `length + 1` is
never exhausted. -/
def recScan : Nat → Str → Bool → List (Str × Str)
  | 0, _, _ => []
  | _ + 1, [], _ => []
  | fuel + 1, c :: cs, atStart =>
    match (if atStart then recTryAt (c :: cs) else none) with
    | some (d, cap, rest) => (d, cap) :: recScan fuel rest cap.isEmpty
    | none => recScan fuel cs (c = '\n')

/-- Case-insensitive head match against a lower-case literal (the `/i`
flag of the field regexes). -/
def startsWithCI : Str → Str → Bool
  | _, [] => true
  | [], _ :: _ => false
  | c :: cs, p :: ps => lowerChar c = p && startsWithCI cs ps

/-- Try the field alternatives at one position: a literal, then `\s*`,
then `(\d+)` (the digits start at the end of the whitespace run since a
digit is not whitespace). -/
def fieldTryAt (alts : List Str) (u : Str) : Option Nat :=
  firstSome (fun alt =>
    if startsWithCI u alt then
      let after := u.drop alt.length
      let run := after.takeWhile isWsChar
      let digits := (after.drop run.length).takeWhile isDigitChar
      if digits.isEmpty then none else some (parseNatDigits digits)
    else none) alts

/-- Search `(?:alt1|alt2|...)\s*(\d+)` anywhere in `u` (first position
wins; at one position the alternatives are tried in order). -/
def fieldSearch (alts : List Str) : Str → Option Nat
  | [] => none
  | c :: cs =>
    match fieldTryAt alts (c :: cs) with
    | some n => some n
    | none => fieldSearch alts cs

/-- Try the timestamp alternatives at one position: a literal, then the
greedy `\s*` backtracking into `([^\n]+)` (the largest split whose next
character exists and is not a newline). -/
def tsTryAt (alts : List Str) (u : Str) : Option Str :=
  firstSome (fun alt =>
    if startsWithCI u alt then
      let after := u.drop alt.length
      let run := after.takeWhile isWsChar
      firstSome (fun r =>
          match after.drop r with
          | [] => none
          | c :: cs =>
            if c = '\n' then none
            else some ((c :: cs).takeWhile (fun x => !(x = '\n'))))
        ((List.range (run.length + 1)).reverse)
    else none) alts

/-- Search `(?:Timestamp:...)\s*([^\n]+)` anywhere in `u`. -/
def tsSearch (alts : List Str) : Str → Option Str
  | [] => none
  | c :: cs =>
    match tsTryAt alts (c :: cs) with
    | some s => some s
    | none => tsSearch alts cs

/-- Try `(?:Notes?:|Note:)\s*\n?([\s\S]*?)(?=\n(?:Time|Timestamp)|$)` at
one position; the `$` alternative again stops the capture at the first
line end, so the capture is the newline-free run after the whitespace. -/
def notesTryAt (u : Str) : Option Str :=
  firstSome (fun alt =>
    if startsWithCI u alt then
      let after := u.drop alt.length
      let run := after.takeWhile isWsChar
      some ((after.drop run.length).takeWhile (fun x => !(x = '\n')))
    else none) [("notes:".toList), ("note:".toList)]

/-- Search the notes pattern anywhere in `u`. -/
def notesSearch : Str → Option Str
  | [] => none
  | c :: cs =>
    match notesTryAt (c :: cs) with
    | some s => some s
    | none => notesSearch cs

def spAlts : List Str :=
  [("**start page:**".toList), ("start page:".toList), ("start:".toList), ("from:".toList)]

def epAlts : List Str :=
  [("**end page:**".toList), ("end page:".toList), ("end:".toList), ("to:".toList), ("page:".toList)]

def prAlts : List Str :=
  [("**pages read:**".toList), ("pages read:".toList), ("pages:".toList), ("read:".toList)]

def tsAlts : List Str :=
  [("**timestamp:**".toList), ("timestamp:".toList), ("time:".toList)]

/-- Assemble one `ReadingRecord` from a matched (date, recordText) pair,
including the fallback `pagesRead = endPage - startPage` when the parsed
`pagesRead` is zero and `endPage > startPage`. -/
def buildRecord (m : Str × Str) : ReadingRecord :=
  let rt := m.2
  let sp : Int := match fieldSearch spAlts rt with | some n => (n : Int) | none => 0
  let ep : Int := match fieldSearch epAlts rt with | some n => (n : Int) | none => 0
  let pr : Int := match fieldSearch prAlts rt with | some n => (n : Int) | none => 0
  let ts : Option Str := (tsSearch tsAlts rt).map jsTrim
  let notes : Option Str :=
    match notesSearch rt with
    | some cap =>
      if cap.isEmpty then none
      else
        let t := jsTrim cap
        if t.isEmpty then none else some t
    | none => none
  let pr2 : Int := if pr = 0 && ep > sp then ep - sp else pr
  { date := m.1, startPage := sp, endPage := ep, pagesRead := pr2,
    notes := notes, timestamp := ts }

/-- `FrontmatterProcessor.parseReadingHistoryFromBody`. -/
def parseReadingHistoryFromBody (body : Str) : List ReadingRecord :=
  match secSearch body with
  | none => []
  | some (_, cap, _) =>
    if cap.isEmpty then []
    else (recScan (cap.length + 1) cap true).map buildRecord

/-- The sort key `a.timestamp || a.date || ''` of a record. -/
def sortKeyOf (r : ReadingRecord) : Str :=
  let t : Str := match r.timestamp with | some ts => ts | none => []
  if t.isEmpty then r.date else t

/-- Lexicographic (code-unit) comparison; `localeCompare` agrees with it
on the ASCII date/timestamp strings the ledger produces. -/
def lexLt : Str → Str → Bool
  | [], [] => false
  | [], _ :: _ => true
  | _ :: _, [] => false
  | a :: as, b :: bs => if a = b then lexLt as bs else decide (a < b)

/-- Stable insertion step for the descending sort
`sort((a, b) => keyB.localeCompare(keyA))`: an already-placed record `y`
stays before `x` exactly when `key x ≤ key y`. -/
def insertDesc (x : ReadingRecord) : List ReadingRecord → List ReadingRecord
  | [] => [x]
  | y :: ys =>
    if lexLt (sortKeyOf x) (sortKeyOf y) || sortKeyOf x = sortKeyOf y then
      y :: insertDesc x ys
    else x :: y :: ys

/-- `[...history].sort((a, b) => dateB.localeCompare(dateA))` — a stable
descending sort by the record key. -/
def sortRecordsDesc (l : List ReadingRecord) : List ReadingRecord :=
  l.foldl (fun acc x => insertDesc x acc) []

/-- The markdown lines of one rendered record. -/
def recordLines (r : ReadingRecord) : List Str :=
  [("### ".toList) ++ (if r.date.isEmpty then ("Unknown Date".toList) else r.date), []]
  ++ [("- **Start Page:** ".toList) ++ intToStr r.startPage,
      ("- **End Page:** ".toList) ++ intToStr r.endPage,
      ("- **Pages Read:** ".toList) ++ intToStr r.pagesRead]
  ++ (match r.timestamp with
      | some ts => if ts.isEmpty then [] else [("- **Timestamp:** ".toList) ++ ts]
      | none => [])
  ++ (match r.notes with
      | some n =>
        if n.isEmpty then []
        else [("- **Notes:**".toList), []]
          ++ (splitOnChar '\n' n).map (fun nl => ("  ".toList) ++ nl)
      | none => [])
  ++ [[]]

/-- The rendered `## Reading History` section (newest first). -/
def renderReadingHistory (history : List ReadingRecord) : Str :=
  joinChar '\n'
    ((("## Reading History".toList) : Str) :: ([] : Str)
      :: (sortRecordsDesc history).flatMap recordLines)

/-- Try `^(##\s+[^\n]+)` at one position: `##`, then the greedy `\s+`
backtracking into `[^\n]+` (largest split whose next character exists and
is not a newline).  Returns (matchedHeading, rest). -/
def headTryAt (u : Str) : Option (Str × Str) :=
  if startsWithS u ("##".toList) then
    let after := u.drop 2
    let run := after.takeWhile isWsChar
    firstSome (fun r =>
        if r = 0 then none
        else
          match after.drop r with
          | [] => none
          | c :: cs =>
            if c = '\n' then none
            else some (("##".toList) ++ after.take r
                         ++ (c :: cs).takeWhile (fun x => !(x = '\n')),
                       (c :: cs).dropWhile (fun x => !(x = '\n'))))
      ((List.range (run.length + 1)).reverse)
  else none

/-- First match of `/^(##\s+[^\n]+)/m`: (before, heading, after). -/
def headScan : Str → Bool → Option (Str × Str × Str)
  | [], _ => none
  | c :: cs, atStart =>
    match (if atStart then headTryAt (c :: cs) else none) with
    | some p => some ([], p.1, p.2)
    | none => (headScan cs (c = '\n')).map (fun p => (c :: p.1, p.2.1, p.2.2))

/-- `FrontmatterProcessor.updateReadingHistoryInBody`: replace the first
section match, else insert before the first `##` heading, else append to
the trimmed body. -/
def updateReadingHistoryInBody (body : Str) (history : List ReadingRecord) : Str :=
  let sectionText := renderReadingHistory history
  match secSearch body with
  | some (before, _, after) => before ++ sectionText ++ after
  | none =>
    match headScan body true with
    | some (before, heading, after) =>
      before ++ sectionText ++ ("\n\n".toList) ++ heading ++ after
    | none => jsTrim body ++ ("\n\n".toList) ++ sectionText

def keyReadPage : Str := "read_page".toList

def keyStatus : Str := "status".toList

def keyReadStarted : Str := "read_started".toList

def keyReadFinished : Str := "read_finished".toList

def keyUpdated : Str := "updated".toList

def keyTotal : Str := "total".toList

/-- Truthiness of the optional `totalPages` argument (`totalPages &&`). -/
def tpTruthy : Option Int → Bool
  | some n => n ≠ 0
  | none => false

/-- The effective start page of a new session:
`startPage ?? (lastRecord?.endPage || frontmatter.read_page || 0)`.
`readPageVal` is the `read_page` binding, which the caller has just set to
the new page, so on every program path it is a number. -/
def effectiveStartPage (existingHistory : List ReadingRecord)
    (readPageVal : Option Val) (startPage : Option Int) : Int :=
  match startPage with
  | some sp => sp
  | none =>
    match existingHistory.getLast? with
    | some r =>
      if r.endPage ≠ 0 then r.endPage
      else
        match readPageVal with
        | some (.vNum n) => if n ≠ 0 then n else 0
        | _ => 0
    | none =>
      match readPageVal with
      | some (.vNum n) => if n ≠ 0 then n else 0
      | _ => 0

/-- The summary projection of a new record (no notes). -/
def sumRecOf (r : ReadingRecord) : SumRec :=
  { date := some (.pStr r.date),
    startPage := some (.pNum r.startPage),
    endPage := some (.pNum r.endPage),
    pagesRead := some (.pNum r.pagesRead),
    timestamp := match r.timestamp with
                 | some ts => some (.pStr ts)
                 | none => none }

/-- The result of one `updateReadingProgress` call before re-serialization:
the updated frontmatter object, the updated body and the new session. -/
structure ProgressResult where
  frontmatter : Fm
  body : Str
  newRecord : ReadingRecord
  deriving DecidableEq

/-- `FrontmatterProcessor.updateReadingProgress` (src/utils/frontmatter.ts),
up to the final string assembly.  `today` is `getCurrentDateTime('YYYY-MM-DD')`
and `now` is `getCurrentDateTime()`, injected as parameters.
`shouldTrackHistory` is the constant `true` in the source, so the history
branch is always taken.  Appending the new summary record to a non-empty
scalar-array summary would build a mixed array, which the value universe
cannot represent; in that one (program-unreachable) case this embedding
restarts from the new record alone. -/
def updateReadingProgressFm (today now : Str) (content : Str) (page : Int)
    (totalPages : Option Int) (notes : Option Str) (autoStatusChange : Bool)
    (startPage : Option Int) : ProgressResult :=
  let ex := extractFrontmatter content
  let body := ex.2
  let fm1 := fmSet ex.1 keyReadPage (.vNum page)
  let fm2 :=
    if autoStatusChange then
      if tpTruthy totalPages && decide (page ≥ totalPages.getD 0) then
        let fma := fmSet fm1 keyStatus (.vStr ("finished".toList))
        if jsTruthyOpt (fmGet fma keyReadFinished) then fma
        else fmSet fma keyReadFinished (.vStr now)
      else if decide (page > 0) && decide (fmGet fm1 keyStatus = some (.vStr ("unread".toList))) then
        let fma := fmSet fm1 keyStatus (.vStr ("reading".toList))
        if jsTruthyOpt (fmGet fma keyReadStarted) then fma
        else fmSet fma keyReadStarted (.vStr now)
      else fm1
    else fm1
  let fm3 := fmSet fm2 keyUpdated (.vStr now)
  let existingHistory := parseReadingHistoryFromBody body
  let recordStartPage := effectiveStartPage existingHistory (fmGet fm3 keyReadPage) startPage
  let newRecord : ReadingRecord :=
    { date := today, startPage := recordStartPage, endPage := page,
      pagesRead := max 0 (page - recordStartPage),
      notes := (match notes with
                | some n => if n.isEmpty then none else some n
                | none => none),
      timestamp := some now }
  let newHistory := existingHistory ++ [newRecord]
  let newSummary : Val :=
    match fmGet fm3 keySummary with
    | some (.vRecs rs) => .vRecs (rs ++ [sumRecOf newRecord])
    | some (.vList []) => .vRecs [sumRecOf newRecord]
    | _ => .vRecs [sumRecOf newRecord]
  let fm4 := fmSet fm3 keySummary newSummary
  { frontmatter := fm4,
    body := updateReadingHistoryInBody body newHistory,
    newRecord := newRecord }

/-- `updateReadingProgress`: the re-serialized document. -/
def updateReadingProgress (today now : Str) (content : Str) (page : Int)
    (totalPages : Option Int) (notes : Option Str) (autoStatusChange : Bool)
    (startPage : Option Int) : Str :=
  let r := updateReadingProgressFm today now content page totalPages notes
    autoStatusChange startPage
  createFrontmatter r.frontmatter ++ '\n' :: r.body

/-! ## Book record mapper (`FrontmatterConverter`,
src/services/frontmatterService/frontmatterParser.ts). -/

/-- JavaScript `a || b` at value level. -/
def jsOrVal (o : Option Val) (dflt : Val) : Val :=
  match o with
  | some v => if jsTruthy v then v else dflt
  | none => dflt

/-- JavaScript `String#split(/\s+/)`: split on whitespace runs (the
sources always trim first, so edge separators do not occur). -/
def splitWs : Str → List Str
  | [] => [[]]
  | c :: cs =>
    match splitWs cs with
    | [] => [[c]]
    | h :: t =>
      if isWsChar c then
        if h.isEmpty then h :: t else [] :: h :: t
      else (c :: h) :: t

/-- `FrontmatterConverter.extractIsbn`: classify whitespace-separated
tokens by length (10 and 13); a later token of the same length wins. -/
def extractIsbn (isbnField : Option Val) : Option Str × Option Str :=
  match isbnField with
  | some v =>
    if jsTruthy v then
      (splitWs (jsTrim (jsValToString v))).foldl
        (fun acc t =>
          if t.length = 10 then (some t, acc.2)
          else if t.length = 13 then (acc.1, some t)
          else acc)
        (none, none)
    else (none, none)
  | none => (none, none)

/-! The untyped `reduce` of `calculateReadPage` adds `record.pagesRead`
values that can be numbers, strings or booleans.  Numbers are modeled in
the exact-decimal form `mant / 10 ^ scale` (in line with `Prim.pFlt`
storing the decimal literal: binary-rounding artifacts of IEEE doubles
are not modeled); strings concatenate; the final loose comparison
converts a string total with `ToNumber`, where `NaN` compares false. -/

/-- A value of the untyped reduce: a number in the decimal model, or a
string (once a truthy string `pagesRead` has been concatenated). -/
inductive JsDyn where
  | num (mant : Int) (scale : Nat)
  | str (s : Str)
  deriving DecidableEq, Repr

/-- Strip trailing decimal zeros: `15.00` is the same JavaScript number
as `15`, so `(1500, 2)` normalizes to `(15, 0)`. -/
def decNorm : Int → Nat → Int × Nat
  | m, 0 => (m, 0)
  | m, s + 1 => if m % 10 = 0 then decNorm (m / 10) s else (m, s + 1)

/-- Exact addition in the decimal model. -/
def decAdd (a b : Int × Nat) : Int × Nat :=
  let s := max a.2 b.2
  decNorm (a.1 * 10 ^ (s - a.2) + b.1 * 10 ^ (s - b.2)) s

/-- Strict order in the decimal model. -/
def decLt (a b : Int × Nat) : Bool :=
  let s := max a.2 b.2
  a.1 * 10 ^ (s - a.2) < b.1 * 10 ^ (s - b.2)

/-- `String()` of a normalized number in the decimal model (`0.5`
renders as `0.5`, `-12.5` as `-12.5`, scale 0 as the plain integer). -/
def decToStr : Int × Nat → Str
  | (m, 0) => intToStr m
  | (m, s + 1) =>
    let ds0 := natToStr m.natAbs
    let ds := if ds0.length < s + 2 then
        List.replicate (s + 2 - ds0.length) '0' ++ ds0
      else ds0
    (if m < 0 then ['-'] else [])
      ++ ds.take (ds.length - (s + 1)) ++ '.' :: ds.drop (ds.length - (s + 1))

/-- Hexadecimal digit test (for the string radix forms of `ToNumber`). -/
def isHexDigit (c : Char) : Bool :=
  isDigitChar c || ('a' ≤ lowerChar c && lowerChar c ≤ 'f')

/-- Hexadecimal digit value. -/
def hexDigitVal (c : Char) : Nat :=
  if isDigitChar c then c.toNat - 48 else (lowerChar c).toNat - 87

/-- Digit-string value in a radix (used by the `0x`/`0o`/`0b` forms). -/
def parseNatBase (b : Nat) (s : Str) : Nat :=
  s.foldl (fun acc c => acc * b + hexDigitVal c) 0

/-- Split a numeric string at its exponent marker `e`/`E`. -/
def splitExp : Str → Str × Option Str
  | [] => ([], none)
  | c :: r =>
    if c = 'e' ∨ c = 'E' then ([], some r)
    else
      let p := splitExp r
      (c :: p.1, p.2)

/-- The signed decimal part of the `ToNumber` string grammar:
`digits [. digits] [e [sign] digits]` with at least one mantissa digit;
anything else is `NaN` (`none`). -/
def jsDecLit (sgn : Int) (t : Str) : Option (Int × Nat) :=
  let me := splitExp t
  let kOpt : Option Int :=
    match me.2 with
    | none => some 0
    | some e =>
      let es : Int × Str :=
        match e with
        | '-' :: r => (-1, r)
        | '+' :: r => (1, r)
        | _ => (1, e)
      if !es.2.isEmpty && es.2.all isDigitChar then
        some (es.1 * parseNatDigits es.2)
      else none
  match kOpt with
  | none => none
  | some k =>
    let mfOpt : Option (Nat × Nat) :=
      match splitOnChar '.' me.1 with
      | [a] =>
        if !a.isEmpty && a.all isDigitChar then some (parseNatDigits a, 0)
        else none
      | [a, b] =>
        if a.all isDigitChar && b.all isDigitChar
            && (!a.isEmpty || !b.isEmpty) then
          some (parseNatDigits (a ++ b), b.length)
        else none
      | _ => none
    match mfOpt with
    | none => none
    | some (m, frac) =>
      let net : Int := (frac : Int) - k
      if net ≤ 0 then some (sgn * (m : Int) * 10 ^ net.natAbs, 0)
      else some (decNorm (sgn * (m : Int)) net.toNat)

/-- JavaScript `ToNumber` of a string, for the forms reachable from the
digit- or sign-headed concatenations of the reduce: trimmed; empty is 0;
a radix literal `0x`/`0o`/`0b`; or a signed decimal literal with
optional fraction and exponent.  Everything else (including `Infinity`,
which no concatenation here can produce) is `NaN` (`none`). -/
def jsStrToNumber (s : Str) : Option (Int × Nat) :=
  let t := jsTrim s
  if t.isEmpty then some (0, 0)
  else
    match t with
    | '0' :: 'x' :: r =>
      if !r.isEmpty && r.all isHexDigit then some ((parseNatBase 16 r : Int), 0)
      else none
    | '0' :: 'X' :: r =>
      if !r.isEmpty && r.all isHexDigit then some ((parseNatBase 16 r : Int), 0)
      else none
    | '0' :: 'o' :: r =>
      if !r.isEmpty && r.all (fun c => '0' ≤ c && c ≤ '7') then
        some ((parseNatBase 8 r : Int), 0)
      else none
    | '0' :: 'O' :: r =>
      if !r.isEmpty && r.all (fun c => '0' ≤ c && c ≤ '7') then
        some ((parseNatBase 8 r : Int), 0)
      else none
    | '0' :: 'b' :: r =>
      if !r.isEmpty && r.all (fun c => c = '0' || c = '1') then
        some ((parseNatBase 2 r : Int), 0)
      else none
    | '0' :: 'B' :: r =>
      if !r.isEmpty && r.all (fun c => c = '0' || c = '1') then
        some ((parseNatBase 2 r : Int), 0)
      else none
    | '-' :: r => jsDecLit (-1) r
    | '+' :: r => jsDecLit 1 r
    | _ => jsDecLit 1 t

/-- The number a `pFlt` literal denotes (exact decimal; a constructed
non-literal `pFlt`, which no source flow produces, denotes 0). -/
def fltToDec (lit : Str) : Int × Nat :=
  match jsStrToNumber lit with
  | some d => d
  | none => (0, 0)

/-- The JavaScript `+` of the reduce body: string concatenation when
either side is a string (`String()` renders the number side in the
decimal model), exact-decimal numeric addition otherwise (booleans
coerce to 0 and 1). -/
def jsPlusPrim (sum : JsDyn) (p : Prim) : JsDyn :=
  match sum, p with
  | .str s, .pFlt lit => .str (s ++ decToStr (fltToDec lit))
  | .str s, q => .str (s ++ jsPrimToString q)
  | .num m sc, .pStr t => .str (decToStr (m, sc) ++ t)
  | .num m sc, .pNum n =>
    let d := decAdd (m, sc) (n, 0)
    .num d.1 d.2
  | .num m sc, .pBool b =>
    let d := decAdd (m, sc) (if b then (1, 0) else (0, 0))
    .num d.1 d.2
  | .num m sc, .pFlt lit =>
    let d := decAdd (m, sc) (fltToDec lit)
    .num d.1 d.2

/-- One step of the reduce: `sum + (record.pagesRead || 0)` (`|| 0`
yields the number 0 for a missing or falsy field). -/
def addPagesRead (sum : JsDyn) (r : SumRec) : JsDyn :=
  match r.pagesRead with
  | some p => if primTruthy p then jsPlusPrim sum p else jsPlusPrim sum (.pNum 0)
  | none => jsPlusPrim sum (.pNum 0)

/-- The loose `totalFromHistory > readPage` of the source: numbers
compare in the decimal model; a string total goes through `ToNumber`,
and `NaN` compares false. -/
def jsGtNum (total : JsDyn) (rp : Int × Nat) : Bool :=
  match total with
  | .num m s => decLt rp (m, s)
  | .str t =>
    match jsStrToNumber t with
    | some d => decLt rp d
    | none => false

/-- `FrontmatterConverter.calculateReadPage`: the explicit `read_page`
counter (0 when not `typeof number`; a float counter is a number too),
replaced by the summary `reduce` total when the loose comparison says
that total is larger.  The untyped reduce keeps the JavaScript dynamic
semantics: truthy string `pagesRead` values switch the sum to string
concatenation, booleans add 0 or 1, floats add in the decimal model. -/
def calculateReadPage (fm : Fm) : JsDyn :=
  let readPage : Int × Nat :=
    match fmGet fm keyReadPage with
    | some (.vNum n) => (n, 0)
    | some (.vFlt lit) => fltToDec lit
    | _ => (0, 0)
  match fmGet fm keySummary with
  | some (.vRecs rs) =>
    let totalFromHistory := rs.foldl addPagesRead (.num 0 0)
    if jsGtNum totalFromHistory readPage then totalFromHistory
    else .num readPage.1 readPage.2
  | some (.vList ps) =>
    -- a scalar array is still an array; `record.pagesRead` on a scalar
    -- element is undefined, so every addend is `|| 0`
    let totalFromHistory :=
      ps.foldl (fun sum _ => jsPlusPrim sum (.pNum 0)) (.num 0 0)
    if jsGtNum totalFromHistory readPage then totalFromHistory
    else .num readPage.1 readPage.2
  | _ => .num readPage.1 readPage.2

/-- The hypothesis domain of the reconciliation claim: the stored
`read_page` is not a float binding (so the explicit counter is the
integer the claim speaks about). -/
def intReadPage (fm : Fm) : Bool :=
  match fmGet fm keyReadPage with
  | some (.vFlt _) => false
  | _ => true

/-- The hypothesis domain of the reconciliation claim: every summary
entry's `pagesRead` is an integer or absent (string and boolean fields
would concatenate or coerce in the untyped reduce). -/
def intSummaryPages (fm : Fm) : Bool :=
  match fmGet fm keySummary with
  | some (.vRecs rs) =>
    rs.all (fun r =>
      match r.pagesRead with
      | some (.pNum _) => true
      | none => true
      | some _ => false)
  | _ => true

def keyTitle : Str := "title".toList

def keySubtitle : Str := "subtitle".toList

def keyAuthor : Str := "author".toList

def keyCategory : Str := "category".toList

def keyPublisher : Str := "publisher".toList

def keyPublish : Str := "publish".toList

def keyIsbn : Str := "isbn".toList

def keyCover : Str := "cover".toList

def keyCreated : Str := "created".toList

/-- The decoded `Book` entity (the fields `frontmatterToBook` assigns).
Dynamically-typed fields keep their raw values. -/
structure Book where
  title : Val
  subtitle : Option Val
  author : Val
  category : Val
  publisher : Option Val
  publishDate : Option Val
  totalPages : Option Int
  isbn10 : Option Str
  isbn13 : Option Str
  coverUrl : Option Val
  status : Val
  readPage : JsDyn
  readStarted : Option Val
  readFinished : Option Val
  created : Val
  updated : Val
  deriving DecidableEq

/-- `FrontmatterConverter.frontmatterToBook`.  `now` is the injected
clock (`getCurrentDateTime()` used for the `created`/`updated`
defaults). -/
def frontmatterToBook (now : Str) (fm : Fm) : Book :=
  let isbns := extractIsbn (fmGet fm keyIsbn)
  let arrayOr : Option Val → Val := fun o =>
    match o with
    | some (.vList ps) => .vList ps
    | some (.vRecs rs) => .vRecs rs
    | _ => .vList []
  { title := jsOrVal (fmGet fm keyTitle) (.vStr []),
    subtitle := fmGet fm keySubtitle,
    author := arrayOr (fmGet fm keyAuthor),
    category := arrayOr (fmGet fm keyCategory),
    publisher := fmGet fm keyPublisher,
    publishDate := fmGet fm keyPublish,
    totalPages := (match fmGet fm keyTotal with
                   | some (.vNum n) => some n
                   | _ => none),
    isbn10 := isbns.1,
    isbn13 := isbns.2,
    coverUrl := fmGet fm keyCover,
    status := jsOrVal (fmGet fm keyStatus) (.vStr ("unread".toList)),
    readPage := calculateReadPage fm,
    readStarted := fmGet fm keyReadStarted,
    readFinished := fmGet fm keyReadFinished,
    created := jsOrVal (fmGet fm keyCreated) (.vStr now),
    updated := jsOrVal (fmGet fm keyUpdated) (.vStr now) }

/-! ## Statistics aggregator (`StatisticsBasesView.calculateStatistics`). -/

/-- One time bucket of the yearly/monthly statistics maps. -/
structure YStat where
  count : Nat
  pages : Int
  change : Option Int := none
  changePercent : Option Int := none
  deriving DecidableEq

/-- `Math.round`: round half toward positive infinity. -/
def jsRound (q : ℚ) : Int := ⌊q + 1 / 2⌋

/-- Ascending insertion by key (`Object.keys(stats).sort()`; the default
comparator is code-unit lexicographic, and bucket keys are unique). -/
def insertKeyAsc (x : Str × YStat) : List (Str × YStat) → List (Str × YStat)
  | [] => [x]
  | y :: ys =>
    if lexLt y.1 x.1 || y.1 = x.1 then y :: insertKeyAsc x ys
    else x :: y :: ys

/-- The sorted key traversal of a bucket map. -/
def sortByKey (l : List (Str × YStat)) : List (Str × YStat) :=
  l.foldl (fun acc x => insertKeyAsc x acc) []

/-- The `for (let i = 1; i < sortedYears.length; i++)` loop: every bucket
after the first gets `change = count - previousCount` and
`changePercent = previous > 0 ? round(change / previous * 100)
: (count > 0 ? 100 : 0)`. -/
def applyChangesAux : Option YStat → List (Str × YStat) → List (Str × YStat)
  | _, [] => []
  | none, (k, st) :: rest => (k, st) :: applyChangesAux (some st) rest
  | some p, (k, st) :: rest =>
    let ch : Int := (st.count : Int) - (p.count : Int)
    let cp : Int :=
      if p.count > 0 then jsRound ((ch : ℚ) / (p.count : ℚ) * 100)
      else if st.count > 0 then 100 else 0
    let st2 := { st with change := some ch, changePercent := some cp }
    (k, st2) :: applyChangesAux (some st2) rest

/-- The trend computation over a bucket map (sort the keys, then run the
change loop). -/
def calculateChanges (stats : List (Str × YStat)) : List (Str × YStat) :=
  applyChangesAux none (sortByKey stats)

/-- The slice of a decoded (Book, summary) pair that the reading-day
computation reads: the raw `readStarted` string (empty for a missing or
falsy value) and the decoded `reading_history_summary` records. -/
structure StatBook where
  readStarted : Str
  summary : List SumRec
  deriving DecidableEq

/-- One iteration of the reading-day loop: skip the book unless
`book.readStarted` is truthy, else add the ISO start date (when
non-empty) and every string-typed summary record date.  `iso` is the
injected `new Date(...).toISOString().split('T')[0]` pipeline. -/
def bookAddDates (iso : Str → Str) (b : StatBook) (acc : Finset Str) : Finset Str :=
  if b.readStarted.isEmpty then acc
  else
    let sd := iso b.readStarted
    let acc1 := if sd.isEmpty then acc else insert sd acc
    b.summary.foldl
      (fun a r =>
        match r.date with
        | some (.pStr s) => insert s a
        | _ => a) acc1

/-- `stats.totalReadingDays`: the size of the accumulated set. -/
def calculateReadingDays (iso : Str → Str) (books : List StatBook) : Nat :=
  (books.foldl (fun acc b => bookAddDates iso b acc) ∅).card

/-- The set of summary dates of one book. -/
def summaryDates (b : StatBook) : Finset Str :=
  b.summary.foldr
    (fun r s =>
      match r.date with
      | some (.pStr d) => insert d s
      | _ => s) ∅

/-- The dates one book contributes in the implementation: nothing at all
without a truthy `readStarted`, else the (non-empty) ISO start date plus
the summary dates. -/
def codeTouchedDates (iso : Str → Str) (b : StatBook) : Finset Str :=
  if b.readStarted.isEmpty then ∅
  else
    (if (iso b.readStarted).isEmpty then ∅ else {iso b.readStarted}) ∪ summaryDates b

/-- Stated from the specification wording, for comparison with the
implementation: the dates touched by a book are the start date (when
present) plus the date of every summary entry, with no gating of the
summary dates on the start date. -/
def specTouchedDates (iso : Str → Str) (b : StatBook) : Finset Str :=
  (if b.readStarted.isEmpty then ∅ else {iso b.readStarted}) ∪ summaryDates b

/-- Stated from the specification wording: the global distinct
reading-day count is the size of the union of the touched dates over the
whole library. -/
def specReadingDays (iso : Str → Str) (books : List StatBook) : Nat :=
  (books.foldr (fun b s => specTouchedDates iso b ∪ s) ∅).card

/-! ## Validity of a header mapping (for the codec round-trip claim).

The conditions below pin down the mappings on which the codec can
round-trip at all: keys must survive the line format (non-empty, no
whitespace, no colon, not starting the comment or list markers, not one
of the two reserved history keys, pairwise distinct) and values must not
collide with the parser coercions (strings without newlines that are not
bare number, boolean or bracket literals; non-negative integers;
booleans; non-empty lists of comma- and newline-free strings whose
single element is not a bare number literal).  Double quotes in strings
are deliberately NOT excluded here; the round-trip claim is settled
against this predicate plus/minus that condition. -/

/-- Key well-formedness for one serialized `key: value` line. -/
def keyOk (k : Str) : Bool :=
  !k.isEmpty
  && k.all (fun c => !(isWsChar c) && c ≠ ':')
  && (match k with
      | c :: _ => c ≠ '#' && c ≠ '-'
      | [] => false)
  && k ≠ keyReadingHistory && k ≠ keySummary

/-- A string value that survives the scalar coercions of the parser
(quotes are handled separately by `quoteFree`). -/
def strValOk (s : Str) : Bool :=
  s.all (fun c => c ≠ '\n')
  && !(allDigits s) && !(decimalLit s)
  && s ≠ ("true".toList) && s ≠ ("false".toList)
  && !(startsWithS s ("[".toList) && endsWithS s ("]".toList))

/-- A list element that survives the comma split. -/
def itemOk (s : Str) : Bool :=
  s.all (fun c => c ≠ ',' && c ≠ '\n')

/-- Value well-formedness. -/
def valOk : Val → Bool
  | .vStr s => strValOk s
  | .vNum n => decide (0 ≤ n)
  | .vFlt _ => false
  | .vBool _ => true
  | .vList items =>
    !items.isEmpty
    && items.all (fun p =>
        match p with
        | .pStr s => itemOk s
        | _ => false)
    && (match items with
        | [.pStr s] => !(allDigits s) && !(decimalLit s)
        | _ => true)
  | .vRecs _ => false

/-- No double quote anywhere in the string parts of a value. -/
def quoteFree : Val → Bool
  | .vStr s => s.all (fun c => c ≠ '\"')
  | .vList items =>
    items.all (fun p =>
      match p with
      | .pStr s => s.all (fun c => c ≠ '\"')
      | _ => true)
  | _ => true

/-- A valid header mapping: well-formed distinct keys, well-formed values. -/
def validFm (m : Fm) : Bool :=
  m.all (fun kv => keyOk kv.1 && valOk kv.2) && decide (m.map Prod.fst).Nodup

/-- The explicit stored counter of a header: `read_page` when numeric,
else 0 (the first operand of the reconciliation). -/
def explicitReadPage (fm : Fm) : Int :=
  match fmGet fm keyReadPage with
  | some (.vNum n) => n
  | _ => 0

/-- The sum of `pagesRead` over the `reading_history_summary` entries of
a header (0 when there are none: absent field, non-array field, or a
scalar array, whose elements have no `pagesRead`). -/
def summaryPagesSum (fm : Fm) : Int :=
  match fmGet fm keySummary with
  | some (.vRecs rs) =>
    rs.foldl (fun sum r =>
      sum + (match r.pagesRead with
             | some (.pNum n) => n
             | _ => 0)) 0
  | _ => 0

/-- The claimed relation between two consecutive buckets in sorted key
order: the later bucket carries `change = count - previousCount`, and
`changePercent` is 100 when the previous count was 0 and the current one
positive, 0 when both are 0, and `round(change / previous * 100)`
otherwise. -/
def bucketStep (p c : YStat) : Prop :=
  c.change = some ((c.count : Int) - (p.count : Int)) ∧
  c.changePercent = some (
    if p.count = 0 then (if 0 < c.count then 100 else 0)
    else jsRound ((((c.count : Int) - (p.count : Int) : Int) : ℚ) / (p.count : ℚ) * 100))

/-! ## Concrete scenario inputs. -/

def today0 : Str := "2026-01-28".toList

def now0 : Str := "2026-01-28 15:30:00".toList

def today1 : Str := "2026-01-29".toList

def now1 : Str := "2026-01-29 10:00:00".toList

/-- A document with no header, no `## Reading History` section. -/
def content0 : Str := "Hello.\n".toList

/-- The first ledger append: `endPage = 50`, no explicit start page, no
known total, automatic status change on. -/
def c1res : ProgressResult :=
  updateReadingProgressFm today0 now0 content0 50 none none true none

/-- The document produced by the first append. -/
def c1doc : Str :=
  updateReadingProgress today0 now0 content0 50 none none true none

/-- The second ledger append on the produced document: `endPage = 120`,
no explicit start page. -/
def c2res : ProgressResult :=
  updateReadingProgressFm today1 now1 c1doc 120 none none true none

/-- A body with an existing multi-entry `## Reading History` section in
the middle of the document, followed by another section. -/
def body4 : Str :=
  ("Intro text.\n\n## Reading History\n\n### 2026-01-20\n\n- **Start Page:** 0\n- **End Page:** 10\n- **Pages Read:** 10\n\n## Notes\n\nKeep this.\n").toList

/-- The history list being rendered into `body4`. -/
def hist4 : List ReadingRecord :=
  [{ date := "2026-01-25".toList, startPage := 10, endPage := 30, pagesRead := 20,
     notes := none, timestamp := some ("2026-01-25 09:00:00".toList) }]

/-- The result an in-place replacement of the whole section (up to the
next `## Notes` heading) would produce. -/
def inPlaceReplacement4 : Str :=
  ("Intro text.\n\n".toList) ++ renderReadingHistory hist4
    ++ ("\n## Notes\n\nKeep this.\n".toList)

/-- The quote-bearing mapping of the round-trip counterexample. -/
def m0 : Fm := [(keyTitle, .vStr ("say \"hi\"".toList))]

/-- A representative valid mapping (strings, a list, a number, a boolean). -/
def mValid : Fm :=
  [(keyTitle, .vStr ("My Book".toList)),
   (keyAuthor, .vList [.pStr ("A One".toList), .pStr ("B Two".toList)]),
   (keyTotal, .vNum 320),
   (("flag".toList), .vBool true),
   (keyPublish, .vStr ("2020-05".toList))]

/-- The yearly bucket map of the statistics trend example:
3 books finished in 2024, 5 in 2025. -/
def exBuckets : List (Str × YStat) :=
  [(("2024".toList), { count := 3, pages := 900 }),
   (("2025".toList), { count := 5, pages := 1500 })]

/-- A book with summary entries but no recorded start date. -/
def bookNoStart : StatBook :=
  { readStarted := [], summary := [{ date := some (.pStr ("2026-01-01".toList)) }] }

/-- A header whose explicit counter is 100 while its summary entries sum
to 150 (the reconciliation example). -/
def fmRecon : Fm :=
  [(keyReadPage, .vNum 100),
   (keySummary, .vRecs
     [{ date := some (.pStr ("2026-01-01".toList)), startPage := some (.pNum 0),
        endPage := some (.pNum 90), pagesRead := some (.pNum 90),
        timestamp := some (.pStr ("2026-01-01 10:00:00".toList)) },
      { date := some (.pStr ("2026-01-02".toList)), startPage := some (.pNum 90),
        endPage := some (.pNum 150), pagesRead := some (.pNum 60),
        timestamp := some (.pStr ("2026-01-02 10:00:00".toList)) }])]

/-- A document whose stored status is `reading`, used with
`totalPages = some 0` (a set-but-zero total). -/
def content10 : Str := "---\nstatus: \"reading\"\n---\nX\n".toList

/-! ## Round-trip helpers: the value half of `parseLine`, and line
well-formedness for the envelope walk. -/

/-- The tail of `parseLine` after the key and the raw value text have
been isolated: quote stripping, bracketed lists, the reserved keys and
the scalar coercions (`parseLine fm (key ++ ": " ++ v0) = parseVal fm
key v0` for well-formed keys and trimmed values). -/
def parseVal (fm : Fm) (key v0 : Str) : Fm :=
  let v1 := if (startsWithS v0 quoteChar && endsWithS v0 quoteChar)
      || (startsWithS v0 apostChar && endsWithS v0 apostChar) then
    sliceInner v0
  else v0
  let val : Val :=
    if startsWithS v1 ("[".toList) && endsWithS v1 ("]".toList) then
      let inner := jsTrim (sliceInner v1)
      if inner.isEmpty then .vList []
      else .vList ((splitOnChar ',' inner).map parseArrayItem)
    else .vStr v1
  if key = keyReadingHistory then fm
  else if key = keySummary then
    match val with
    | .vList ps => fmSet fm key (.vList ps)
    | _ => fmSet fm key (.vList [])
  else
    let sv := jsValToString val
    let val2 : Val :=
      if allDigits sv then .vNum (parseNatDigits sv)
      else if decimalLit sv then .vFlt sv
      else val
    let val3 : Val :=
      match val2 with
      | .vStr s =>
        if s = ("true".toList) then .vBool true
        else if s = ("false".toList) then .vBool false
        else val2
      | _ => val2
    fmSet fm key val3

/-- Well-formedness of one serialized header line for the envelope walk:
non-empty, newline-free, and starting with neither whitespace nor a dash
(so the terminator `\n---\s*\n` cannot fire inside the block and the
greedy `\s*` of the opening delimiter stops at the first newline). -/
def lineOk (l : Str) : Bool :=
  match l with
  | [] => false
  | c :: _ => !(isWsChar c) && c ≠ '-' && l.all (fun d => d ≠ '\n')

/-- A string wrapped in double quotes, as the serializer renders string
list elements. -/
def wrapQ (s : Str) : Str := '\"' :: s ++ ['\"']

/-! ## Claim theorems. -/

/-- C1.  Evaluating the ledger append on a body with no existing
"Reading History" section and an empty summary, with `endPage = 50` and
no explicit start page: the code records `startPage = 50` and
`pagesRead = 0` (not `startPage = 0`, `pagesRead = 50` as the claim
states), because `frontmatter.read_page` is overwritten with the new
page before it is used as the fallback start page, and the body-history
parser never returns any session.  A new section dated today with
exactly this one entry is created. -/
theorem c1_first_append_records_zero_pages :
    c1res.newRecord.startPage = 50 ∧
    c1res.newRecord.pagesRead = 0 ∧
    ¬ (c1res.newRecord.startPage = 0 ∧ c1res.newRecord.pagesRead = 50) ∧
    c1res.newRecord.date = today0 ∧
    fmGet c1res.frontmatter keySummary = some (.vRecs [sumRecOf c1res.newRecord]) ∧
    c1res.body =
      ("Hello.\n\n## Reading History\n\n### 2026-01-28\n\n- **Start Page:** 50\n- **End Page:** 50\n- **Pages Read:** 0\n- **Timestamp:** 2026-01-28 15:30:00\n").toList := by
  refine ⟨rfl, rfl, by decide, rfl, by decide, by decide⟩

/-- C2.  After a first append with `endPage = 50`, a second append with
`endPage = 120` and no explicit start page records
`startPage = 120`, `pagesRead = 0` — not `startPage = 50`,
`pagesRead = 70` as the claim states.  The re-parse of the rendered
section finds no sessions (the lazy capture of the section regex stops
at the first line end because `$` is multiline), so the fallback reads
the already-overwritten `read_page`. -/
theorem c2_chained_append_does_not_chain :
    c2res.newRecord.startPage = 120 ∧
    c2res.newRecord.pagesRead = 0 ∧
    ¬ (c2res.newRecord.startPage = 50 ∧ c2res.newRecord.pagesRead = 70) ∧
    parseReadingHistoryFromBody (extractFrontmatter c1doc).2 = [] := by
  refine ⟨by decide, by decide, by decide, by decide⟩

/-- C4.  Upserting into a body whose `## Reading History` section sits
mid-document: the replacement consumes only the section header and the
first line after it, so the remaining lines of the old section survive
as stray text between the new section and the following `## Notes`
heading; the result is not the in-place replacement of the section. -/
theorem c4_upsert_leaves_stale_section_content :
    updateReadingHistoryInBody body4 hist4 =
      ("Intro text.\n\n## Reading History\n\n### 2026-01-25\n\n- **Start Page:** 10\n- **End Page:** 30\n- **Pages Read:** 20\n- **Timestamp:** 2026-01-25 09:00:00\n\n\n- **Start Page:** 0\n- **End Page:** 10\n- **Pages Read:** 10\n\n## Notes\n\nKeep this.\n").toList ∧
    updateReadingHistoryInBody body4 hist4 ≠ inPlaceReplacement4 := by
  refine ⟨by decide, by decide⟩

/-- C5 counterexample.  Serializing a mapping whose string value contains
a double quote and parsing it back does not return the mapping: the
serializer escapes the quote (`\"`), but the parser only strips the
surrounding quotes and never unescapes, so the backslashes survive in
the parsed value. -/
theorem c5_roundtrip_quote_counterexample :
    parseFrontmatter (createFrontmatter m0 ++ ['\n'])
      = [(keyTitle, .vStr ("say \\\"hi\\\"".toList))] ∧
    parseFrontmatter (createFrontmatter m0 ++ ['\n']) ≠ m0 := by
  refine ⟨by decide, by decide⟩

/-- C8 counterexample.  A stored status outside the three valid values is
passed through unchanged by the mapper (`frontmatter.status || 'unread'`
only replaces falsy values), so the decoded status is `archived`, not
the claimed default `unread`. -/
theorem c8_status_passthrough_counterexample :
    (frontmatterToBook now0 [(keyStatus, .vStr ("archived".toList))]).status
      = .vStr ("archived".toList) ∧
    (frontmatterToBook now0 [(keyStatus, .vStr ("archived".toList))]).status
      ≠ .vStr ("unread".toList) := by
  refine ⟨by decide, by decide⟩

/-- C9 counterexample.  A book with summary entries but no recorded start
date contributes nothing to the implemented reading-day count (the whole
summary scan is gated on `book.readStarted`), while the claimed union of
touched dates counts its summary date. -/
theorem c9_reading_days_counterexample :
    calculateReadingDays id [bookNoStart] = 0 ∧
    specReadingDays id [bookNoStart] = 1 ∧
    calculateReadingDays id [bookNoStart] ≠ specReadingDays id [bookNoStart] := by
  refine ⟨by decide, by decide, by decide⟩

/-- C10 counterexample.  With `totalPages` supplied as `0` (set, but
falsy) and a positive page, the finished branch is skipped because the
code tests `totalPages &&` (truthiness), not presence: a book already in
`reading` keeps that status even though `page ≥ totalPages`. -/
theorem c10_totalPages_zero_counterexample :
    fmGet (updateReadingProgressFm today0 now0 content10 5 (some 0) none true
        none).frontmatter keyStatus = some (.vStr ("reading".toList)) ∧
    some (Val.vStr ("reading".toList)) ≠ some (Val.vStr ("finished".toList)) := by
  refine ⟨by decide, by decide⟩

/-- Looking up the key just assigned returns the assigned value. -/
theorem fmGet_fmSet_self (fm : Fm) (k : Str) (v : Val) :
    fmGet (fmSet fm k v) k = some v := by
  induction fm with
  | nil => simp [fmSet, fmGet]
  | cons kv rest ih =>
    by_cases h : kv.1 = k
    · simp [fmSet, fmGet, h]
    · simp [fmSet, fmGet, h, ih]

/-- Assigning one key leaves every other key unchanged. -/
theorem fmGet_fmSet_ne (fm : Fm) (k k0 : Str) (v : Val) (h : k0 ≠ k) :
    fmGet (fmSet fm k0 v) k = fmGet fm k := by
  induction fm with
  | nil => simp [fmSet, fmGet, h]
  | cons kv rest ih =>
    by_cases h2 : kv.1 = k0
    · simp [fmSet, fmGet, h2, h]
    · simp [fmSet, fmGet, h2, ih]

/-- C7.  Every ledger append records
`pagesRead = max(0, endPage - effectiveStartPage)`, hence never a
negative value, and always appends exactly one summary entry (in
particular a call whose `endPage` equals the effective start page
appends a `pagesRead = 0` session rather than being dropped). -/
theorem c7_pagesRead_clamped_and_appended (today now content : Str) (page : Int)
    (totalPages : Option Int) (notes : Option Str) (autoStatusChange : Bool)
    (startPage : Option Int)
    (res : ProgressResult)
    (hres : res = updateReadingProgressFm today now content page totalPages notes
      autoStatusChange startPage) :
    res.newRecord.pagesRead = max 0 (page - res.newRecord.startPage) ∧
    0 ≤ res.newRecord.pagesRead ∧
    (∃ prior, fmGet res.frontmatter keySummary
      = some (.vRecs (prior ++ [sumRecOf res.newRecord]))) ∧
    (page = res.newRecord.startPage → res.newRecord.pagesRead = 0) := by
  subst hres
  refine ⟨rfl, le_max_left _ _, ?_, ?_⟩
  · show ∃ prior, fmGet (fmSet _ keySummary _) keySummary = _
    rw [fmGet_fmSet_self]
    simp only [updateReadingProgressFm]
    rcases hv : fmGet (fmSet
        (if autoStatusChange then _ else _) keyUpdated (Val.vStr now)) keySummary with _ | v
    · exact ⟨[], by simp [hv]⟩
    · cases v with
      | vRecs rs => exact ⟨rs, by simp [hv]⟩
      | vList ps =>
        cases ps with
        | nil => exact ⟨[], by simp [hv]⟩
        | cons p ps => exact ⟨[], by simp [hv]⟩
      | vStr s => exact ⟨[], by simp [hv]⟩
      | vNum n => exact ⟨[], by simp [hv]⟩
      | vFlt l => exact ⟨[], by simp [hv]⟩
      | vBool b => exact ⟨[], by simp [hv]⟩
  · intro h
    have h1 : (updateReadingProgressFm today now content page totalPages notes
        autoStatusChange startPage).newRecord.pagesRead
        = max 0 (page - (updateReadingProgressFm today now content page totalPages
          notes autoStatusChange startPage).newRecord.startPage) := rfl
    rw [h1, ← h]
    simp

/-- C7 witness: a concrete call with `endPage` equal to the effective
start page (the explicit start page 30) still appends a `pagesRead = 0`
session. -/
theorem c7_witness :
    (updateReadingProgressFm today0 now0 content0 30 none none true
        (some 30)).newRecord.pagesRead = 0 ∧
    fmGet (updateReadingProgressFm today0 now0 content0 30 none none true
        (some 30)).frontmatter keySummary
      = some (.vRecs [sumRecOf (updateReadingProgressFm today0 now0 content0 30
        none none true (some 30)).newRecord]) := by
  have h := c7_pagesRead_clamped_and_appended today0 now0 content0 30 none none
    true (some 30) _ rfl
  exact ⟨h.2.2.2 (by decide), by decide⟩

/-- Folding `+ 0` over a scalar array adds nothing. -/
theorem foldl_add_zero (ps : List Prim) (init : Int) :
    ps.foldl (fun s _ => s + 0) init = init := by
  induction ps generalizing init with
  | nil => rfl
  | cons p ps ih => simp [List.foldl, ih]

/-- Addition of scale-0 numbers in the decimal model is integer
addition. -/
theorem decAdd_int (m n : Int) : decAdd (m, 0) (n, 0) = (m + n, 0) := by
  simp [decAdd, decNorm]

/-- One reduce step on an integer-or-absent `pagesRead` record adds its
integer reading. -/
theorem addPagesRead_int (m : Int) (r : SumRec)
    (h : (match r.pagesRead with
          | some (.pNum _) => true
          | none => true
          | some _ => false) = true) :
    addPagesRead (.num m 0) r
      = .num (m + (match r.pagesRead with
                   | some (.pNum n) => n
                   | _ => 0)) 0 := by
  rcases hr : r.pagesRead with _ | p
  · simp [addPagesRead, hr, jsPlusPrim, decAdd, decNorm]
  · cases p with
    | pNum n =>
      by_cases hn : n = 0
      · subst hn
        simp [addPagesRead, hr, primTruthy, jsPlusPrim, decAdd, decNorm]
      · simp [addPagesRead, hr, primTruthy, hn, jsPlusPrim, decAdd, decNorm]
    | pStr t =>
      rw [hr] at h
      simp at h
    | pFlt l =>
      rw [hr] at h
      simp at h
    | pBool b =>
      rw [hr] at h
      simp at h

/-- The reduce over integer-or-absent records computes the integer
`pagesRead` sum. -/
theorem foldl_addPagesRead (rs : List SumRec)
    (h : (rs.all (fun r =>
        match r.pagesRead with
        | some (.pNum _) => true
        | none => true
        | some _ => false)) = true) :
    ∀ m : Int, rs.foldl addPagesRead (.num m 0)
      = .num (rs.foldl (fun sum r =>
          sum + (match r.pagesRead with
                 | some (.pNum n) => n
                 | _ => 0)) m) 0 := by
  induction rs with
  | nil =>
    intro m
    rfl
  | cons r t ih =>
    intro m
    simp only [List.all_cons, Bool.and_eq_true] at h
    rw [List.foldl_cons, List.foldl_cons, addPagesRead_int m r h.1]
    exact ih h.2 _

/-- The reduce over a scalar array only ever adds `|| 0`. -/
theorem foldl_plusZero (ps : List Prim) : ∀ m : Int,
    ps.foldl (fun sum _ => jsPlusPrim sum (.pNum 0)) (.num m 0)
      = .num m 0 := by
  induction ps with
  | nil =>
    intro m
    rfl
  | cons p t ih =>
    intro m
    rw [List.foldl_cons,
      show jsPlusPrim (JsDyn.num m 0) (.pNum 0) = .num m 0 from by
        simp [jsPlusPrim, decAdd, decNorm]]
    exact ih m

/-- The loose comparison on scale-0 numbers is the integer order. -/
theorem jsGtNum_int (t r : Int) :
    jsGtNum (.num t 0) (r, 0) = decide (r < t) := by
  simp [jsGtNum, decLt]

/-- The decoded counter of a mapping on the numeric claim domain:
always an integer no smaller than the explicit counter, and equal to
`max(explicit, summary total)` when the explicit counter is
non-negative. -/
theorem calculateReadPage_int (fm : Fm)
    (hrp : intReadPage fm = true) (hsp : intSummaryPages fm = true) :
    ∃ v : Int, calculateReadPage fm = .num v 0 ∧
      explicitReadPage fm ≤ v ∧
      (0 ≤ explicitReadPage fm →
        v = max (explicitReadPage fm) (summaryPagesSum fm)) := by
  have hinit : (match fmGet fm keyReadPage with
      | some (.vNum n) => ((n, 0) : Int × Nat)
      | some (.vFlt lit) => fltToDec lit
      | _ => (0, 0)) = (explicitReadPage fm, 0) := by
    unfold intReadPage at hrp
    unfold explicitReadPage
    rcases hg : fmGet fm keyReadPage with _ | v
    · rfl
    · rw [hg] at hrp
      cases v with
      | vFlt lit => simp at hrp
      | vStr s => rfl
      | vNum n => rfl
      | vBool b => rfl
      | vList ps => rfl
      | vRecs rs => rfl
  unfold intSummaryPages at hsp
  simp only [calculateReadPage, summaryPagesSum, hinit]
  rcases hs : fmGet fm keySummary with _ | v
  · simp only []
    refine ⟨explicitReadPage fm, by simp, le_refl _, fun h0 => ?_⟩
    omega
  · rw [hs] at hsp
    cases v with
    | vRecs rs =>
      simp only []
      rw [foldl_addPagesRead rs hsp 0, jsGtNum_int]
      simp only [decide_eq_true_eq]
      split_ifs with hlt
      · refine ⟨_, rfl, by omega, fun h0 => by omega⟩
      · refine ⟨explicitReadPage fm, by simp, le_refl _, fun h0 => by omega⟩
    | vList ps =>
      simp only []
      rw [foldl_plusZero ps 0, jsGtNum_int]
      simp only [decide_eq_true_eq]
      split_ifs with hlt
      · refine ⟨0, rfl, by omega, fun h0 => by omega⟩
      · refine ⟨explicitReadPage fm, by simp, le_refl _, fun h0 => by omega⟩
    | vStr s =>
      simp only []
      refine ⟨explicitReadPage fm, by simp, le_refl _, fun h0 => by omega⟩
    | vNum n =>
      simp only []
      refine ⟨explicitReadPage fm, by simp, le_refl _, fun h0 => by omega⟩
    | vFlt l =>
      simp only []
      refine ⟨explicitReadPage fm, by simp, le_refl _, fun h0 => by omega⟩
    | vBool b =>
      simp only []
      refine ⟨explicitReadPage fm, by simp, le_refl _, fun h0 => by omega⟩

/-- Off the numeric domain the untyped reduce really concatenates: with
`read_page: 2` and summary entries whose `pagesRead` are the number 1
and the string `"2"`, the total becomes the string `"12"`, `ToNumber`
makes the loose comparison `12 > 2` hold, and the decoded counter is
the string `"12"` - not `max(2, 3)`. -/
theorem calculateReadPage_concat_example :
    calculateReadPage
        [(keyReadPage, .vNum 2),
         (keySummary, .vRecs
           [{ pagesRead := some (.pNum 1) },
            { pagesRead := some (.pStr ("2".toList)) }])]
      = .str ("12".toList) := by
  decide

/-- C3 counterexample.  With a negative explicit counter and no summary
list the mapper returns the counter unchanged, not the claimed maximum
of the counter and the (empty, hence 0) summary total. -/
theorem c3_reconciliation_counterexample :
    (frontmatterToBook now0 [(keyReadPage, .vNum (-5))]).readPage
      = .num (-5) 0 ∧
    max (explicitReadPage [(keyReadPage, .vNum (-5))])
      (summaryPagesSum [(keyReadPage, .vNum (-5))]) = 0 ∧
    JsDyn.num (-5) 0 ≠ JsDyn.num 0 0 := by
  refine ⟨by decide, by decide, by decide⟩

/-- C3 amended.  On the numeric claim domain — the stored `read_page`
is not a float binding, and every summary entry's `pagesRead` is an
integer or absent — the decoded `currentPage` of a mapping with a
non-negative explicit counter is the number
`max(explicit counter, summary pagesRead total)`; without the sign
restriction the decoded value is still an integer no smaller than the
explicit counter; and the `read_page: 100` / summary-sum-150 example
decodes to the number 150.  Outside that domain the untyped reduce
concatenates truthy string fields and coerces booleans and floats, and
the maximum formula does not describe it. -/
theorem c3_reconciliation_amended (now : Str) (fm : Fm)
    (hrp : intReadPage fm = true) (hsp : intSummaryPages fm = true) :
    (0 ≤ explicitReadPage fm →
      (frontmatterToBook now fm).readPage
        = .num (max (explicitReadPage fm) (summaryPagesSum fm)) 0) ∧
    (∃ v : Int, (frontmatterToBook now fm).readPage = .num v 0 ∧
      explicitReadPage fm ≤ v) ∧
    (frontmatterToBook now0 fmRecon).readPage = .num 150 0 := by
  have hcode : (frontmatterToBook now fm).readPage = calculateReadPage fm :=
    rfl
  obtain ⟨v, hv, hle, hmax⟩ := calculateReadPage_int fm hrp hsp
  refine ⟨?_, ⟨v, by rw [hcode, hv], hle⟩, by decide⟩
  intro h0
  rw [hcode, hv, hmax h0]

/-- C8 amended.  The decoded status equals the stored field whenever that
field is truthy — in particular when it is one of `unread`, `reading`,
`finished` — and defaults to `unread` only when the field is missing or
falsy (e.g. the empty string); a truthy invalid value is passed through
unchanged rather than defaulted. -/
theorem c8_status_amended (now : Str) (fm : Fm) :
    (∀ s : Str, (s = ("unread".toList) ∨ s = ("reading".toList) ∨ s = ("finished".toList)) →
      fmGet fm keyStatus = some (.vStr s) →
      (frontmatterToBook now fm).status = .vStr s) ∧
    (fmGet fm keyStatus = none →
      (frontmatterToBook now fm).status = .vStr ("unread".toList)) ∧
    (fmGet fm keyStatus = some (.vStr []) →
      (frontmatterToBook now fm).status = .vStr ("unread".toList)) ∧
    (∀ v : Val, fmGet fm keyStatus = some v → jsTruthy v = true →
      (frontmatterToBook now fm).status = v) := by
  have hst : (frontmatterToBook now fm).status
      = jsOrVal (fmGet fm keyStatus) (.vStr ("unread".toList)) := rfl
  refine ⟨?_, ?_, ?_, ?_⟩
  · intro s hs hv
    rw [hst, hv]
    rcases hs with h | h | h <;> subst h <;> decide
  · intro hv
    rw [hst, hv]
    rfl
  · intro hv
    rw [hst, hv]
    decide
  · intro v hv htr
    rw [hst, hv]
    simp [jsOrVal, htr]

/-- C8 witness: a stored `reading` decodes to `reading`, and a header
with no status field decodes to the default `unread`. -/
theorem c8_witness :
    (frontmatterToBook now0 [(keyStatus, .vStr ("reading".toList))]).status
      = .vStr ("reading".toList) ∧
    (frontmatterToBook now0 []).status = .vStr ("unread".toList) := by
  refine ⟨(c8_status_amended now0 _).1 _ (Or.inr (Or.inl rfl)) (by decide),
    (c8_status_amended now0 []).2.1 (by decide)⟩

/-- Reading any of the three status/timestamp keys through the trailing
`updated` and summary assignments of `updateReadingProgress` is reading
it in the intermediate mapping. -/
theorem fmGet_after_tail (fm2 : Fm) (now : Str) (x : Val) (k : Str)
    (h1 : keyUpdated ≠ k) (h2 : keySummary ≠ k) :
    fmGet (fmSet (fmSet fm2 keyUpdated (.vStr now)) keySummary x) k
      = fmGet fm2 k := by
  rw [fmGet_fmSet_ne _ _ _ _ h2, fmGet_fmSet_ne _ _ _ _ h1]

/-- C10 amended.  With automatic status change enabled: when `totalPages`
is supplied, non-zero (the code tests truthiness, not presence) and
`page ≥ totalPages`, the status becomes `finished` and `read_finished`
is stamped with the current time exactly when it was previously falsy;
otherwise, when the page is positive and the stored status is exactly
`unread`, the status becomes `reading` and `read_started` is stamped
exactly when previously falsy; in every other case the status and both
timestamps are unchanged; `updated` is refreshed on every call. -/
theorem c10_status_transition_amended (today now content : Str) (page : Int)
    (tp : Option Int) (notes : Option Str) (sp : Option Int)
    (fm0 : Fm) (hfm0 : fm0 = (extractFrontmatter content).1)
    (out : Fm)
    (hout : out = (updateReadingProgressFm today now content page tp notes true
      sp).frontmatter) :
    fmGet out keyUpdated = some (.vStr now) ∧
    (tpTruthy tp = true → tp.getD 0 ≤ page →
      fmGet out keyStatus = some (.vStr ("finished".toList)) ∧
      (jsTruthyOpt (fmGet fm0 keyReadFinished) = false →
        fmGet out keyReadFinished = some (.vStr now)) ∧
      (jsTruthyOpt (fmGet fm0 keyReadFinished) = true →
        fmGet out keyReadFinished = fmGet fm0 keyReadFinished) ∧
      fmGet out keyReadStarted = fmGet fm0 keyReadStarted) ∧
    (¬ (tpTruthy tp = true ∧ tp.getD 0 ≤ page) → 0 < page →
      fmGet fm0 keyStatus = some (.vStr ("unread".toList)) →
      fmGet out keyStatus = some (.vStr ("reading".toList)) ∧
      (jsTruthyOpt (fmGet fm0 keyReadStarted) = false →
        fmGet out keyReadStarted = some (.vStr now)) ∧
      (jsTruthyOpt (fmGet fm0 keyReadStarted) = true →
        fmGet out keyReadStarted = fmGet fm0 keyReadStarted) ∧
      fmGet out keyReadFinished = fmGet fm0 keyReadFinished) ∧
    (¬ (tpTruthy tp = true ∧ tp.getD 0 ≤ page) →
      ¬ (0 < page ∧ fmGet fm0 keyStatus = some (.vStr ("unread".toList))) →
      fmGet out keyStatus = fmGet fm0 keyStatus ∧
      fmGet out keyReadStarted = fmGet fm0 keyReadStarted ∧
      fmGet out keyReadFinished = fmGet fm0 keyReadFinished) := by
  subst hfm0 hout
  refine ⟨?_, ?_, ?_, ?_⟩
  · simp +decide [updateReadingProgressFm, fmGet_fmSet_ne, fmGet_fmSet_self]
  · intro htp hge
    have hc1 : (tpTruthy tp && decide (page ≥ tp.getD 0)) = true := by
      simp [htp, ge_iff_le, hge]
    by_cases hrf : jsTruthyOpt (fmGet (extractFrontmatter content).1
        keyReadFinished) = true
    · refine ⟨?_, ?_, ?_, ?_⟩
      · simp +decide [updateReadingProgressFm, hc1, hrf, fmGet_fmSet_ne,
          fmGet_fmSet_self]
      · intro h
        rw [h] at hrf
        exact absurd hrf (by simp)
      · intro _
        simp +decide [updateReadingProgressFm, hc1, hrf, fmGet_fmSet_ne,
          fmGet_fmSet_self]
      · simp +decide [updateReadingProgressFm, hc1, hrf, fmGet_fmSet_ne,
          fmGet_fmSet_self]
    · refine ⟨?_, ?_, ?_, ?_⟩
      · simp +decide [updateReadingProgressFm, hc1, hrf, fmGet_fmSet_ne,
          fmGet_fmSet_self]
      · intro _
        simp +decide [updateReadingProgressFm, hc1, hrf, fmGet_fmSet_ne,
          fmGet_fmSet_self]
      · intro h
        rw [h] at hrf
        exact absurd rfl hrf
      · simp +decide [updateReadingProgressFm, hc1, hrf, fmGet_fmSet_ne,
          fmGet_fmSet_self]
  · intro hnc1 hpg hstat
    have hc1 : (tpTruthy tp && decide (page ≥ tp.getD 0)) = false := by
      rcases htp : tpTruthy tp with _ | _
      · simp
      · simp only [ge_iff_le, Bool.true_and]
        simp only [decide_eq_false_iff_not]
        intro hle
        exact hnc1 ⟨htp, hle⟩
    have hstat1 : fmGet (fmSet (extractFrontmatter content).1 keyReadPage
        (Val.vNum page)) keyStatus = some (.vStr ("unread".toList)) := by
      rw [fmGet_fmSet_ne _ _ _ _ (by decide)]
      exact hstat
    have hc2 : (decide (page > 0) && decide (fmGet (fmSet (extractFrontmatter
        content).1 keyReadPage (Val.vNum page)) keyStatus
          = some (Val.vStr ("unread".toList)))) = true := by
      simp [hpg, hstat1]
    by_cases hrs : jsTruthyOpt (fmGet (extractFrontmatter content).1
        keyReadStarted) = true
    · refine ⟨?_, ?_, ?_, ?_⟩
      · simp +decide [updateReadingProgressFm, hc1, hc2, hpg, hstat, hrs,
          fmGet_fmSet_ne, fmGet_fmSet_self]
      · intro h
        rw [h] at hrs
        exact absurd hrs (by simp)
      · intro _
        simp +decide [updateReadingProgressFm, hc1, hc2, hpg, hstat, hrs,
          fmGet_fmSet_ne, fmGet_fmSet_self]
      · simp +decide [updateReadingProgressFm, hc1, hc2, hpg, hstat, hrs,
          fmGet_fmSet_ne, fmGet_fmSet_self]
    · refine ⟨?_, ?_, ?_, ?_⟩
      · simp +decide [updateReadingProgressFm, hc1, hc2, hpg, hstat, hrs,
          fmGet_fmSet_ne, fmGet_fmSet_self]
      · intro _
        simp +decide [updateReadingProgressFm, hc1, hc2, hpg, hstat, hrs,
          fmGet_fmSet_ne, fmGet_fmSet_self]
      · intro h
        rw [h] at hrs
        exact absurd rfl hrs
      · simp +decide [updateReadingProgressFm, hc1, hc2, hpg, hstat, hrs,
          fmGet_fmSet_ne, fmGet_fmSet_self]
  · intro hnc1 hnc2
    have hc1 : (tpTruthy tp && decide (page ≥ tp.getD 0)) = false := by
      rcases htp : tpTruthy tp with _ | _
      · simp
      · simp only [ge_iff_le, Bool.true_and]
        simp only [decide_eq_false_iff_not]
        intro hle
        exact hnc1 ⟨htp, hle⟩
    have hc2 : (decide (page > 0) && decide (fmGet (fmSet (extractFrontmatter
        content).1 keyReadPage (Val.vNum page)) keyStatus
          = some (Val.vStr ("unread".toList)))) = false := by
      rcases hpg : decide (page > 0) with _ | _
      · simp
      · simp only [Bool.true_and, decide_eq_false_iff_not]
        intro hstat1
        refine hnc2 ⟨by simpa using hpg, ?_⟩
        rw [fmGet_fmSet_ne _ _ _ _ (by decide)] at hstat1
        exact hstat1
    by_cases hpg : 0 < page
    · have hne : fmGet (extractFrontmatter content).1 keyStatus
          ≠ some (.vStr ("unread".toList)) := fun h => hnc2 ⟨hpg, h⟩
      have hne2 : fmGet (extractFrontmatter content).1 keyStatus
          ≠ some (Val.vStr ['u', 'n', 'r', 'e', 'a', 'd']) := hne
      refine ⟨?_, ?_, ?_⟩ <;>
        simp +decide [updateReadingProgressFm, hc1, hc2, hpg, hne2,
          fmGet_fmSet_ne, fmGet_fmSet_self]
    · refine ⟨?_, ?_, ?_⟩ <;>
        simp +decide [updateReadingProgressFm, hc1, hc2, hpg,
          fmGet_fmSet_ne, fmGet_fmSet_self]

/-- C10 witness: a finishing call (`totalPages = 200`, `page = 200`) on a
document in `reading` status with no `read_finished`: the status becomes
`finished`, `read_finished` and `updated` are stamped. -/
theorem c10_witness :
    fmGet (updateReadingProgressFm today0 now0 content10 200 (some 200) none true
      none).frontmatter keyStatus = some (.vStr ("finished".toList)) ∧
    fmGet (updateReadingProgressFm today0 now0 content10 200 (some 200) none true
      none).frontmatter keyReadFinished = some (.vStr now0) ∧
    fmGet (updateReadingProgressFm today0 now0 content10 200 (some 200) none true
      none).frontmatter keyUpdated = some (.vStr now0) := by
  have h := c10_status_transition_amended today0 now0 content10 200 (some 200)
    none none _ rfl _ rfl
  have h2 := h.2.1 (by decide) (by decide)
  exact ⟨h2.1, h2.2.1 (by decide), h.1⟩

/-- The change loop keeps the number of buckets. -/
theorem applyChangesAux_length (l : List (Str × YStat)) :
    ∀ prev : Option YStat, (applyChangesAux prev l).length = l.length := by
  induction l with
  | nil => intro prev; cases prev <;> rfl
  | cons x rest ih =>
    intro prev
    obtain ⟨k, st⟩ := x
    cases prev with
    | none => simp [applyChangesAux, ih]
    | some p => simp [applyChangesAux, ih]

/-- The updated later bucket of one loop step satisfies the claimed
relation against the bucket before it. -/
theorem bucketStep_of_update (p st : YStat) :
    bucketStep p { st with
      change := some ((st.count : Int) - (p.count : Int)),
      changePercent := some (
        if p.count > 0 then
          jsRound ((((st.count : Int) - (p.count : Int) : Int) : ℚ) / (p.count : ℚ) * 100)
        else if st.count > 0 then 100 else 0) } := by
  constructor
  · rfl
  · by_cases h : p.count = 0
    · simp [h]
    · have h2 : 0 < p.count := Nat.pos_of_ne_zero h
      simp [h, h2]

/-- The head of the change loop run with a previous bucket satisfies the
claimed relation against that previous bucket. -/
theorem applyChangesAux_head_rel (p : YStat) (l2 : List (Str × YStat)) :
    ∀ y ∈ (applyChangesAux (some p) l2).head?, bucketStep p y.2 := by
  cases l2 with
  | nil => simp [applyChangesAux]
  | cons x r2 =>
    obtain ⟨k2, st2⟩ := x
    intro y hy
    simp only [applyChangesAux, List.head?_cons, Option.mem_def,
      Option.some.injEq] at hy
    subst hy
    exact bucketStep_of_update p st2

/-- Consecutive output buckets of the change loop always satisfy the
claimed relation. -/
theorem applyChangesAux_chain (l : List (Str × YStat)) :
    ∀ prev : Option YStat,
      List.Chain' (fun a b => bucketStep a.2 b.2) (applyChangesAux prev l) := by
  induction l with
  | nil => intro prev; cases prev <;> exact List.chain'_nil
  | cons x rest ih =>
    intro prev
    obtain ⟨k, st⟩ := x
    cases prev with
    | none =>
      rw [show applyChangesAux none ((k, st) :: rest)
          = (k, st) :: applyChangesAux (some st) rest from rfl,
        List.chain'_cons']
      exact ⟨applyChangesAux_head_rel st rest, ih (some st)⟩
    | some p =>
      rw [show applyChangesAux (some p) ((k, st) :: rest)
          = (k, { st with
              change := some ((st.count : Int) - (p.count : Int)),
              changePercent := some (
                if p.count > 0 then
                  jsRound ((((st.count : Int) - (p.count : Int) : Int) : ℚ)
                    / (p.count : ℚ) * 100)
                else if st.count > 0 then 100 else 0) })
            :: applyChangesAux (some { st with
              change := some ((st.count : Int) - (p.count : Int)),
              changePercent := some (
                if p.count > 0 then
                  jsRound ((((st.count : Int) - (p.count : Int) : Int) : ℚ)
                    / (p.count : ℚ) * 100)
                else if st.count > 0 then 100 else 0) }) rest from rfl,
        List.chain'_cons']
      exact ⟨applyChangesAux_head_rel _ rest, ih (some _)⟩

/-- C6.  For every bucket map, every pair of consecutive buckets of the
trend computation (in sorted key order) satisfies the claimed
change/changePercent relation. -/
theorem c6_bucket_change_formula (stats : List (Str × YStat)) (i : Nat)
    (h : i + 1 < (calculateChanges stats).length) :
    bucketStep (((calculateChanges stats).get ⟨i, Nat.lt_of_succ_lt h⟩).2)
      (((calculateChanges stats).get ⟨i + 1, h⟩).2) := by
  have hc := applyChangesAux_chain (sortByKey stats) none
  rw [List.chain'_iff_get] at hc
  exact hc i (by
    have := h
    simp only [calculateChanges] at this
    omega)

/-- C6 witness: on the yearly buckets `{2024 ↦ 3, 2025 ↦ 5}` the 2025
bucket gets `change = 2` and `changePercent = 67` (67 rounded from
66.67). -/
theorem c6_witness :
    (((calculateChanges exBuckets).get ⟨1, by decide⟩).2).change = some 2 ∧
    (((calculateChanges exBuckets).get ⟨1, by decide⟩).2).changePercent = some 67 := by
  have h : 0 + 1 < (calculateChanges exBuckets).length := by decide
  obtain ⟨h1, h2⟩ := c6_bucket_change_formula exBuckets 0 h
  have hcnt0 : (((calculateChanges exBuckets).get
      ⟨0, Nat.lt_of_succ_lt h⟩).2).count = 3 := rfl
  have hcnt1 : (((calculateChanges exBuckets).get ⟨0 + 1, h⟩).2).count = 5 := rfl
  rw [hcnt0, hcnt1] at h1 h2
  refine ⟨h1.trans (by norm_num), h2.trans ?_⟩
  norm_num [jsRound]

/-- C3 witness: the reconciliation example is on the numeric domain and
its explicit counter 100 is non-negative, so the amended theorem applies
and its decoded counter is the claimed maximum. -/
theorem c3_witness :
    intReadPage fmRecon = true ∧ intSummaryPages fmRecon = true ∧
    0 ≤ explicitReadPage fmRecon ∧
    (frontmatterToBook now0 fmRecon).readPage
      = .num (max (explicitReadPage fmRecon) (summaryPagesSum fmRecon)) 0 := by
  exact ⟨by decide, by decide, by decide,
    (c3_reconciliation_amended now0 fmRecon (by decide) (by decide)).1
      (by decide)⟩

/-- Folding the per-record date inserts over a summary accumulates the
record date set into the accumulator. -/
theorem sumDates_foldl (rs : List SumRec) :
    ∀ acc : Finset Str,
      rs.foldl (fun a r =>
        match r.date with
        | some (.pStr s) => insert s a
        | _ => a) acc
      = rs.foldr (fun r s =>
          match r.date with
          | some (.pStr d) => insert d s
          | _ => s) ∅ ∪ acc := by
  induction rs with
  | nil => intro acc; simp
  | cons r rs ih =>
    intro acc
    rcases hd : r.date with _ | p
    · simp only [List.foldl_cons, List.foldr_cons, hd]
      exact ih acc
    · cases p with
      | pStr s =>
        simp only [List.foldl_cons, List.foldr_cons, hd, ih,
          Finset.union_insert, Finset.insert_union]
      | pNum n => simp only [List.foldl_cons, List.foldr_cons, hd]; exact ih acc
      | pFlt l2 => simp only [List.foldl_cons, List.foldr_cons, hd]; exact ih acc
      | pBool b => simp only [List.foldl_cons, List.foldr_cons, hd]; exact ih acc

/-- One loop iteration adds exactly the dates the book contributes. -/
theorem bookAddDates_eq (iso : Str → Str) (b : StatBook) (acc : Finset Str) :
    bookAddDates iso b acc = codeTouchedDates iso b ∪ acc := by
  by_cases hs : b.readStarted.isEmpty
  · simp [bookAddDates, codeTouchedDates, hs]
  · by_cases hd : (iso b.readStarted).isEmpty
    · simp only [bookAddDates, codeTouchedDates, hs, if_neg, hd, if_true,
        Bool.false_eq_true, if_false, sumDates_foldl, summaryDates,
        Finset.empty_union]
    · simp only [bookAddDates, codeTouchedDates, hs, hd, Bool.false_eq_true,
        if_false, sumDates_foldl, summaryDates]
      ext x
      simp only [Finset.mem_union, Finset.mem_insert, Finset.mem_singleton]
      tauto

/-- The whole loop accumulates the union of the per-book date sets. -/
theorem readingDays_foldl (iso : Str → Str) (books : List StatBook) :
    ∀ acc : Finset Str,
      books.foldl (fun acc b => bookAddDates iso b acc) acc
      = (books.map (codeTouchedDates iso)).foldr (· ∪ ·) ∅ ∪ acc := by
  induction books with
  | nil => intro acc; simp
  | cons b bs ih =>
    intro acc
    rw [List.foldl_cons, bookAddDates_eq, ih, List.map_cons, List.foldr_cons]
    ext x
    simp only [Finset.mem_union]
    tauto

/-- C9 amended.  The implemented global reading-day count is the size of
the union, over the books having a truthy `readStarted`, of the
(non-empty) ISO start date plus every summary entry date; books without
a start date contribute nothing. -/
theorem c9_reading_days_amended (iso : Str → Str) (books : List StatBook) :
    calculateReadingDays iso books
      = ((books.map (codeTouchedDates iso)).foldr (· ∪ ·) ∅).card := by
  unfold calculateReadingDays
  rw [readingDays_foldl]
  simp

/-! ## Round-trip of the codec on valid mappings: string lemmas. -/

/-- Dropping while a predicate fails at the head is the identity. -/
theorem dropWhile_eq_self_head (p : Char → Bool) (s : Str)
    (h : ∀ a ∈ s.head?, p a = false) : s.dropWhile p = s := by
  cases s with
  | nil => rfl
  | cons c cs =>
    have hc : p c = false := h c rfl
    simp [List.dropWhile, hc]

/-- A string whose first and last characters are not whitespace is its
own trim. -/
theorem jsTrim_eq_self (s : Str)
    (h1 : ∀ a ∈ s.head?, isWsChar a = false)
    (h2 : ∀ a ∈ s.getLast?, isWsChar a = false) : jsTrim s = s := by
  unfold jsTrim
  rw [dropWhile_eq_self_head _ _ h1]
  rw [dropWhile_eq_self_head _ _ (by
    intro a ha
    exact h2 a (by rwa [List.head?_reverse] at ha))]
  exact List.reverse_reverse s

/-- The first `c` of `k ++ c :: r` sits at index `k.length` when `k` is
`c`-free. -/
theorem firstIdxOf_append (c : Char) (k r : Str) (h : c ∉ k) :
    firstIdxOf c (k ++ c :: r) = some k.length := by
  induction k with
  | nil => simp [firstIdxOf]
  | cons d ds ih =>
    have hd : d ≠ c := by
      intro he
      exact h (by simp [he])
    simp only [List.cons_append, firstIdxOf, hd, if_false, List.append_eq]
    rw [ih (fun hm => h (List.mem_cons_of_mem d hm))]
    simp

/-- Splitting a separator-free string is the one-piece split. -/
theorem splitOnChar_sepFree (sep : Char) (s : Str) (h : sep ∉ s) :
    splitOnChar sep s = [s] := by
  induction s with
  | nil => rfl
  | cons c cs ih =>
    have hc : c ≠ sep := fun he => h (by simp [he])
    simp only [splitOnChar, ih (fun hm => h (List.mem_cons_of_mem c hm))]
    simp [hc]

/-- The split function never returns the empty list. -/
theorem splitOnChar_ne_nil (sep : Char) (s : Str) : splitOnChar sep s ≠ [] := by
  cases s with
  | nil => simp [splitOnChar]
  | cons c cs =>
    simp only [splitOnChar]
    split
    · simp
    · split_ifs <;> simp

/-- Splitting an append whose first part is separator-free peels it off. -/
theorem splitOnChar_append_sep (sep : Char) (x r : Str) (h : sep ∉ x) :
    splitOnChar sep (x ++ sep :: r) = x :: splitOnChar sep r := by
  induction x with
  | nil =>
    simp only [List.nil_append, splitOnChar]
    rcases hsp : splitOnChar sep r with _ | ⟨h0, t0⟩
    · exact absurd hsp (splitOnChar_ne_nil sep r)
    · simp
  | cons c cs ih =>
    have hc : c ≠ sep := fun he => h (by simp [he])
    have ih2 := ih (fun hm => h (List.mem_cons_of_mem c hm))
    simp only [List.cons_append, splitOnChar, List.append_eq, ih2]
    simp [hc]

/-- Splitting a newline join recovers the newline-free lines. -/
theorem splitOnChar_join (sep : Char) (lines : List Str) (h : lines ≠ [])
    (hfree : ∀ l ∈ lines, sep ∉ l) :
    splitOnChar sep (joinChar sep lines) = lines := by
  induction lines with
  | nil => exact absurd rfl h
  | cons x rest ih =>
    cases rest with
    | nil =>
      simp only [joinChar]
      exact splitOnChar_sepFree sep x (hfree x (by simp))
    | cons y r2 =>
      have hx : sep ∉ x := hfree x (by simp)
      simp only [joinChar, splitOnChar_append_sep sep x _ hx]
      rw [ih (by simp) (fun l hl => hfree l (List.mem_cons_of_mem x hl))]

/-- Joining after appending a last line. -/
theorem joinChar_append_singleton (sep : Char) (lines : List Str) (z : Str)
    (h : lines ≠ []) :
    joinChar sep (lines ++ [z]) = joinChar sep lines ++ sep :: z := by
  induction lines with
  | nil => exact absurd rfl h
  | cons x rest ih =>
    cases rest with
    | nil => simp [joinChar]
    | cons y r2 =>
      have ih2 := ih (by simp)
      simp only [List.cons_append, List.append_eq, joinChar] at ih2 ⊢
      rw [ih2]
      simp

/-- Escaping is the identity on quote-free strings. -/
theorem escQuotes_eq_self (s : Str) (h : ∀ c ∈ s, ¬(c = '\"')) :
    escQuotes s = s := by
  induction s with
  | nil => rfl
  | cons c cs ih =>
    have hc : ¬(c = '\"') := h c (by simp)
    simp only [escQuotes, List.flatMap_cons, if_neg hc]
    have ih2 := ih (fun d hd => h d (List.mem_cons_of_mem c hd))
    simp only [escQuotes] at ih2
    simp [ih2]

/-- Slicing off an added first and last character. -/
theorem sliceInner_wrap (a b : Char) (s : Str) :
    sliceInner (a :: s ++ [b]) = s := by
  simp [sliceInner]

/-! ### Decimal digit round-trip. -/

/-- The fuel-based digit expansion agrees with `Nat.digits 10`. -/
theorem natDigitsAux_eq (fuel n : Nat) (h : n ≤ fuel) :
    natDigitsAux fuel n = Nat.digits 10 n := by
  induction fuel generalizing n with
  | zero =>
    interval_cases n
    simp [natDigitsAux]
  | succ f ih =>
    cases n with
    | zero => simp [natDigitsAux]
    | succ m =>
      rw [natDigitsAux, Nat.digits_def' (by norm_num) (Nat.succ_pos m),
        ih ((m + 1) / 10) (by omega)]

/-- The characters `0`–`9`: digits, not whitespace, and distinct from
every delimiter character of the codec. -/
theorem digitChar_props (d : Nat) (h : d < 10) :
    isDigitChar (Nat.digitChar d) = true ∧ isWsChar (Nat.digitChar d) = false ∧
    Nat.digitChar d ≠ '\"' ∧ Nat.digitChar d ≠ '\x27' ∧
    Nat.digitChar d ≠ '[' ∧ Nat.digitChar d ≠ ':' ∧ Nat.digitChar d ≠ '-' ∧
    Nat.digitChar d ≠ '\n' ∧ charDigitVal (Nat.digitChar d) = d := by
  interval_cases d <;> decide

/-- Every character of a rendered natural number is a digit character. -/
theorem mem_natToStr (x : Nat) (c : Char) (hc : c ∈ natToStr x) :
    ∃ d, d < 10 ∧ c = Nat.digitChar d := by
  unfold natToStr at hc
  by_cases hx : x = 0
  · subst hx
    simp at hc
    exact ⟨0, by norm_num, by rw [hc]; rfl⟩
  · rw [if_neg hx, natDigitsAux_eq x x le_rfl] at hc
    simp only [List.mem_reverse, List.mem_map] at hc
    obtain ⟨d, hd, hcd⟩ := hc
    exact ⟨d, Nat.digits_lt_base (by norm_num) hd, hcd.symm⟩

/-- Rendered naturals are non-empty. -/
theorem natToStr_ne_nil (x : Nat) : natToStr x ≠ [] := by
  unfold natToStr
  by_cases hx : x = 0
  · simp [hx]
  · rw [if_neg hx, natDigitsAux_eq x x le_rfl]
    simp [Nat.digits_ne_nil_iff_ne_zero.mpr hx]

/-- Rendered naturals pass the `/^\d+$/` test. -/
theorem natToStr_allDigits (x : Nat) : allDigits (natToStr x) = true := by
  unfold allDigits
  rw [Bool.and_eq_true]
  refine ⟨?_, ?_⟩
  · simpa [List.isEmpty_iff] using natToStr_ne_nil x
  · rw [List.all_eq_true]
    intro c hc
    obtain ⟨d, hd, rfl⟩ := mem_natToStr x c hc
    exact (digitChar_props d hd).1

/-- Folding the `parseInt` step over digit characters computes the
digits-to-number conversion. -/
theorem foldr_digitChar (l : List Nat) (h : ∀ d ∈ l, d < 10) :
    l.foldr (fun d a => a * 10 + charDigitVal (Nat.digitChar d)) 0
      = Nat.ofDigits 10 l := by
  induction l with
  | nil => simp [Nat.ofDigits]
  | cons d t ih =>
    rw [List.foldr_cons, ih (fun e he => h e (List.mem_cons_of_mem d he)),
      Nat.ofDigits_cons,
      (digitChar_props d (h d (List.mem_cons_self d t))).2.2.2.2.2.2.2.2]
    ring

/-- `parseInt` inverts `String()` on natural numbers. -/
theorem parseNat_natToStr (x : Nat) : parseNatDigits (natToStr x) = x := by
  by_cases hx : x = 0
  · subst hx
    decide
  · unfold natToStr parseNatDigits
    rw [if_neg hx, natDigitsAux_eq x x le_rfl, List.foldl_reverse,
      List.foldr_map]
    have hlt : ∀ d ∈ Nat.digits 10 x, d < 10 :=
      fun d hd => Nat.digits_lt_base (by norm_num) hd
    calc (Nat.digits 10 x).foldr
          (fun c acc => acc * 10 + charDigitVal (Nat.digitChar c)) 0
        = Nat.ofDigits 10 (Nat.digits 10 x) := foldr_digitChar _ hlt
      _ = x := Nat.ofDigits_digits 10 x

/-! ### The envelope walk over serialized lines. -/

/-- `joinChar` on a cons with a non-empty tail. -/
theorem joinChar_cons (sep : Char) (x : Str) (xs : List Str) (h : xs ≠ []) :
    joinChar sep (x :: xs) = x ++ sep :: joinChar sep xs := by
  cases xs with
  | nil => exact absurd rfl h
  | cons y r => rfl

/-- Joining the pieces of a split restores the string. -/
theorem joinChar_splitOnChar (sep : Char) (s : Str) :
    joinChar sep (splitOnChar sep s) = s := by
  induction s with
  | nil => rfl
  | cons c cs ih =>
    simp only [splitOnChar]
    rcases hsp : splitOnChar sep cs with _ | ⟨h0, t0⟩
    · exact absurd hsp (splitOnChar_ne_nil sep cs)
    · rw [hsp] at ih
      show joinChar sep
        (if c = sep then [] :: h0 :: t0 else (c :: h0) :: t0) = c :: cs
      by_cases hc : c = sep
      · rw [if_pos hc, joinChar_cons sep [] (h0 :: t0) (by simp), ih, hc]
        rfl
      · rw [if_neg hc]
        cases t0 with
        | nil =>
          simp only [joinChar] at ih ⊢
          rw [ih]
        | cons u r =>
          rw [joinChar_cons sep (c :: h0) (u :: r) (by simp),
            joinChar_cons sep h0 (u :: r) (by simp)] at *
          rw [List.cons_append, ih]

/-- The unpacked content of a well-formed line. -/
theorem lineOk_spec (l : Str) (h : lineOk l = true) :
    ∃ c r, l = c :: r ∧ isWsChar c = false ∧ c ≠ '-' ∧ ∀ d ∈ l, d ≠ '\n' := by
  cases l with
  | nil => exact absurd h (by decide)
  | cons c r =>
    simp only [lineOk, Bool.and_eq_true, Bool.not_eq_true', decide_eq_true_eq,
      List.all_eq_true] at h
    exact ⟨c, r, rfl, h.1.1, h.1.2, fun d hd => by
      have := h.2 d hd
      simpa using this⟩

/-- The terminator cannot match when the head is not a newline. -/
theorem termRest_ne_nl (c : Char) (u : Str) (h : c ≠ '\n') :
    termRest (c :: u) = none := by
  unfold termRest
  split
  · rename_i v heq
    injection heq with h1 _
    exact absurd h1 h
  · rfl

/-- The terminator cannot match when the character after the newline is
not a dash. -/
theorem termRest_nl (c : Char) (u : Str) (h : c ≠ '-') :
    termRest ('\n' :: c :: u) = none := by
  unfold termRest
  split
  · rename_i v heq
    injection heq with h1 h2
    injection h2 with h3 _
    exact absurd h3 h
  · rfl

/-- The lazy group walks through a newline-free prefix unchanged. -/
theorem groupScan_push (x : Str) (hx : ∀ c ∈ x, c ≠ '\n') (u : Str) :
    groupScan (x ++ u) = (groupScan u).map (fun p => (x ++ p.1, p.2)) := by
  induction x with
  | nil =>
    cases hgu : groupScan u <;> simp [hgu]
  | cons c cs ih =>
    have hc : c ≠ '\n' := hx c (by simp)
    rw [List.cons_append]
    simp only [groupScan, termRest_ne_nl c _ hc,
      ih (fun d hd => hx d (List.mem_cons_of_mem c hd))]
    cases hgu : groupScan u <;> simp

/-- The lazy group steps over a newline at which the terminator fails. -/
theorem groupScan_nl (w : Str) (h : termRest ('\n' :: w) = none) :
    groupScan ('\n' :: w) = (groupScan w).map (fun p => ('\n' :: p.1, p.2)) := by
  simp only [groupScan, h]

/-- The lazy group captures exactly the joined well-formed lines when the
terminator follows: the terminator cannot fire earlier because every line
break is followed by a non-dash character. -/
theorem groupScan_lines (L : List Str) (hok : ∀ l ∈ L, lineOk l = true) :
    groupScan (joinChar '\n' L ++ ['\n', '-', '-', '-', '\n'])
      = some (joinChar '\n' L, []) := by
  induction L with
  | nil =>
    simp only [joinChar, List.nil_append]
    rfl
  | cons x rest ih =>
    obtain ⟨xc, xr, hxe, hxw, hxd, hxnl⟩ := lineOk_spec x (hok x (by simp))
    cases rest with
    | nil =>
      simp only [joinChar]
      rw [groupScan_push x hxnl,
        show groupScan ['\n', '-', '-', '-', '\n'] = some ([], []) from rfl]
      simp
    | cons y r =>
      obtain ⟨yc, yr, hye, hyw, hyd, hynl⟩ := lineOk_spec y (hok y (by simp))
      rw [joinChar_cons '\n' x (y :: r) (by simp), List.append_assoc,
        List.cons_append, groupScan_push x hxnl]
      have hshape : ∃ s, joinChar '\n' (y :: r) ++ ['\n', '-', '-', '-', '\n']
          = yc :: s := by
        cases r with
        | nil =>
          subst hye
          exact ⟨yr ++ ['\n', '-', '-', '-', '\n'], by simp [joinChar]⟩
        | cons z t =>
          rw [joinChar_cons '\n' y (z :: t) (by simp)]
          subst hye
          exact ⟨yr ++ '\n' :: joinChar '\n' (z :: t)
            ++ ['\n', '-', '-', '-', '\n'], by simp⟩
      obtain ⟨s, hs⟩ := hshape
      rw [hs, groupScan_nl (yc :: s) (termRest_nl yc s hyd), ← hs,
        ih (fun l hl => hok l (List.mem_cons_of_mem x hl))]
      simp

/-- The envelope regex on a serialized header followed by the newline the
caller inserts: it captures exactly the joined entry lines. -/
theorem envExtract_create (L : List Str) (hne : L ≠ [])
    (hok : ∀ l ∈ L, lineOk l = true) :
    envExtract (joinChar '\n' (("---".toList) :: (L ++ [("---".toList)]))
        ++ ['\n'])
      = some (joinChar '\n' L, []) := by
  obtain ⟨x, rest, rfl⟩ : ∃ x rest, L = x :: rest := by
    cases L with
    | nil => exact absurd rfl hne
    | cons x rest => exact ⟨x, rest, rfl⟩
  obtain ⟨xc, xr, hxe, hxw, hxd, hxnl⟩ := lineOk_spec x (hok x (by simp))
  have h1 : joinChar '\n' (("---".toList) :: ((x :: rest) ++ [("---".toList)]))
      = ("---".toList)
        ++ '\n' :: joinChar '\n' ((x :: rest) ++ [("---".toList)]) :=
    joinChar_cons '\n' _ _ (by simp)
  have h2 : joinChar '\n' ((x :: rest) ++ [("---".toList)])
      = joinChar '\n' (x :: rest) ++ '\n' :: ("---".toList) :=
    joinChar_append_singleton '\n' (x :: rest) _ (by simp)
  have hcontent :
      joinChar '\n' (("---".toList) :: ((x :: rest) ++ [("---".toList)]))
        ++ ['\n']
      = '-' :: '-' :: '-' :: '\n' ::
        (joinChar '\n' (x :: rest) ++ ['\n', '-', '-', '-', '\n']) := by
    rw [h1, h2]
    simp
  rw [hcontent]
  have hshape : ∃ s, joinChar '\n' (x :: rest) = xc :: s := by
    cases rest with
    | nil =>
      subst hxe
      exact ⟨xr, by simp [joinChar]⟩
    | cons z t =>
      rw [joinChar_cons '\n' x (z :: t) (by simp)]
      subst hxe
      exact ⟨xr ++ '\n' :: joinChar '\n' (z :: t), by simp⟩
  obtain ⟨s, hs⟩ := hshape
  unfold envExtract
  have hstart : startsWithS ('-' :: '-' :: '-' :: '\n' ::
      (joinChar '\n' (x :: rest) ++ ['\n', '-', '-', '-', '\n']))
      ("---".toList) = true := rfl
  rw [if_pos hstart]
  show firstSome groupScan (wsNlSplits ('\n' ::
    (joinChar '\n' (x :: rest) ++ ['\n', '-', '-', '-', '\n']))) = _
  have hws1 : wsNlSplits ('\n' ::
      (joinChar '\n' (x :: rest) ++ ['\n', '-', '-', '-', '\n']))
      = wsNlSplits (joinChar '\n' (x :: rest) ++ ['\n', '-', '-', '-', '\n'])
        ++ [joinChar '\n' (x :: rest) ++ ['\n', '-', '-', '-', '\n']] := by
    simp +decide [wsNlSplits]
  have hws2 : wsNlSplits (joinChar '\n' (x :: rest)
      ++ ['\n', '-', '-', '-', '\n']) = [] := by
    rw [hs, List.cons_append]
    simp [wsNlSplits, hxw]
  rw [hws1, hws2, List.nil_append]
  simp only [firstSome, groupScan_lines (x :: rest) hok]

/-- Trimming a value preceded by the single space the serializer inserts
after the colon. -/
theorem jsTrim_space (w : Str)
    (h1 : ∀ a ∈ w.head?, isWsChar a = false)
    (h2 : ∀ a ∈ w.getLast?, isWsChar a = false) :
    jsTrim (' ' :: w) = w := by
  unfold jsTrim
  rw [List.dropWhile_cons, if_pos (by decide),
    dropWhile_eq_self_head _ _ h1,
    dropWhile_eq_self_head _ _ (by
      intro a ha
      exact h2 a (by rwa [List.head?_reverse] at ha))]
  exact List.reverse_reverse w

/-- The last element of an appended non-empty tail. -/
theorem getLast?_append_cons : ∀ (l : Str) (c : Char) (r : Str),
    (l ++ c :: r).getLast? = (c :: r).getLast?
  | [], _, _ => rfl
  | a :: t, c, r => by
    obtain ⟨b, m, hbm⟩ : ∃ b m, t ++ c :: r = b :: m := by
      cases t with
      | nil => exact ⟨c, r, rfl⟩
      | cons u v => exact ⟨u, v ++ c :: r, by simp⟩
    rw [List.cons_append, hbm, List.getLast?_cons_cons, ← hbm,
      getLast?_append_cons t c r]

/-- Membership through `getLast?`. -/
theorem getLast?_mem_of : ∀ (l : Str) (a : Char), a ∈ l.getLast? → a ∈ l
  | [], _, h => by simp at h
  | [c], a, h => by
    simp only [List.getLast?_singleton, Option.mem_def, Option.some.injEq] at h
    simp [h]
  | c :: d :: t, a, h => by
    rw [List.getLast?_cons_cons] at h
    exact List.mem_cons_of_mem c (getLast?_mem_of (d :: t) a h)

/-- Splitting one serialized line at its colon: `parseLine` on
`key ++ ": " ++ value` is the value half `parseVal` whenever the key is
well-formed and the value neither starts nor ends with whitespace. -/
theorem parseLine_split (fm : Fm) (k w : Str) (hk : keyOk k = true)
    (hw : w ≠ []) (h1 : ∀ a ∈ w.head?, isWsChar a = false)
    (h2 : ∀ a ∈ w.getLast?, isWsChar a = false) :
    parseLine fm (k ++ ':' :: ' ' :: w) = parseVal fm k w := by
  simp only [keyOk, Bool.and_eq_true, Bool.not_eq_true', decide_eq_true_eq,
    List.all_eq_true] at hk
  obtain ⟨⟨⟨⟨hkne, hkchars⟩, hkhead⟩, hkrh⟩, hksum⟩ := hk
  obtain ⟨w0, wr, rfl⟩ : ∃ a l, w = a :: l := by
    cases w with
    | nil => exact absurd rfl hw
    | cons a l => exact ⟨a, l, rfl⟩
  cases k with
  | nil => simp at hkne
  | cons kc kr =>
    simp only [Bool.and_eq_true, decide_eq_true_eq] at hkhead
    obtain ⟨hkhash, hkdash⟩ := hkhead
    have hkw : isWsChar kc = false :=
      (by simpa using hkchars kc (by simp) : isWsChar kc = false ∧ kc ≠ ':').1
    have hkcol : (':' : Char) ∉ kc :: kr := fun hm => by
      have := hkchars ':' hm
      simp at this
    have htrim : jsTrim ((kc :: kr) ++ ':' :: ' ' :: w0 :: wr)
        = (kc :: kr) ++ ':' :: ' ' :: w0 :: wr := by
      refine jsTrim_eq_self _ ?_ ?_
      · intro a ha
        simp only [List.cons_append, List.head?_cons, Option.mem_def,
          Option.some.injEq] at ha
        rw [← ha]
        exact hkw
      · rw [getLast?_append_cons, List.getLast?_cons_cons,
          List.getLast?_cons_cons]
        exact h2
    have hidx : firstIdxOf ':' ((kc :: kr) ++ ':' :: ' ' :: w0 :: wr)
        = some (kc :: kr).length :=
      firstIdxOf_append ':' (kc :: kr) (' ' :: w0 :: wr) hkcol
    have hne2 : ((kc :: kr) ++ ':' :: ' ' :: w0 :: wr).isEmpty = false := by
      simp
    have hhash : startsWithS ((kc :: kr) ++ ':' :: ' ' :: w0 :: wr)
        ("#".toList) = false := by
      simp [startsWithS, hkhash]
    have htake : ((kc :: kr) ++ ':' :: ' ' :: w0 :: wr).take
        (kc :: kr).length = kc :: kr := List.take_left _ _
    have hdrop : ((kc :: kr) ++ ':' :: ' ' :: w0 :: wr).drop
        ((kc :: kr).length + 1) = ' ' :: w0 :: wr := by
      rw [show (kc :: kr) ++ ':' :: ' ' :: w0 :: wr
        = ((kc :: kr) ++ [':']) ++ ' ' :: w0 :: wr by simp,
        show (kc :: kr).length + 1 = ((kc :: kr) ++ [':']).length by simp]
      exact List.drop_left _ _
    have hktrim : jsTrim (kc :: kr) = kc :: kr := by
      refine jsTrim_eq_self _ ?_ ?_
      · intro a ha
        simp only [List.head?_cons, Option.mem_def, Option.some.injEq] at ha
        rw [← ha]
        exact hkw
      · intro a ha
        exact (by simpa using hkchars a (getLast?_mem_of _ a ha) :
          isWsChar a = false ∧ a ≠ ':').1
    have hwtrim : jsTrim (' ' :: w0 :: wr) = w0 :: wr := jsTrim_space _ h1 h2
    simp only [parseLine, htrim, hne2, hhash, hidx, htake, hdrop, hktrim,
      hwtrim, Bool.false_eq_true, if_false, parseVal]

/-- A well-formed key is neither reserved history key. -/
theorem keyOk_ne (k : Str) (hk : keyOk k = true) :
    ¬(k = keyReadingHistory) ∧ ¬(k = keySummary) := by
  simp only [keyOk, Bool.and_eq_true, decide_eq_true_eq] at hk
  exact ⟨hk.1.2, hk.2⟩

/-- A string ends with its appended last character. -/
theorem endsWithS_concat (l : Str) (c : Char) : endsWithS (l ++ [c]) [c] = true := by
  simp [endsWithS, startsWithS]

/-- The value half of the parser on a double-quoted string value that
survives the scalar coercions: the quotes are stripped and the payload is
stored verbatim. -/
theorem parseVal_str (fm : Fm) (k s : Str) (hk : keyOk k = true)
    (hs : strValOk s = true) :
    parseVal fm k (wrapQ s) = fmSet fm k (.vStr s) := by
  obtain ⟨hrh, hsum⟩ := keyOk_ne k hk
  simp only [strValOk, Bool.and_eq_true, Bool.not_eq_true',
    decide_eq_true_eq] at hs
  obtain ⟨⟨⟨⟨⟨ha, hb⟩, hc⟩, hd⟩, he⟩, hf⟩ := hs
  have hq1 : (startsWithS (wrapQ s) quoteChar
      && endsWithS (wrapQ s) quoteChar) = true := by
    rw [Bool.and_eq_true]
    exact ⟨by simp [wrapQ, quoteChar, startsWithS],
      endsWithS_concat ('\"' :: s) '\"'⟩
  have hv1 : sliceInner (wrapQ s) = s := sliceInner_wrap '\"' '\"' s
  simp only [parseVal, hq1, Bool.true_or, if_true, hv1, hf,
    Bool.false_eq_true, if_false, hrh, hsum, jsValToString, hb, hc, hd, he,
    ite_false, ite_true]

/-- The value half of the parser on a rendered natural number: the digit
run is coerced back to the number. -/
theorem parseVal_num (fm : Fm) (k : Str) (x : Nat) (hk : keyOk k = true) :
    parseVal fm k (natToStr x) = fmSet fm k (.vNum (x : Int)) := by
  obtain ⟨hrh, hsum⟩ := keyOk_ne k hk
  obtain ⟨c, cs, hcs⟩ : ∃ c cs, natToStr x = c :: cs := by
    cases hnn : natToStr x with
    | nil => exact absurd hnn (natToStr_ne_nil x)
    | cons c cs => exact ⟨c, cs, rfl⟩
  obtain ⟨d, hd, hcd⟩ := mem_natToStr x c (by rw [hcs]; simp)
  obtain ⟨-, -, hq, hap, hbr, -, -, -, -⟩ := digitChar_props d hd
  have hsw1 : startsWithS (natToStr x) quoteChar = false := by
    rw [hcs]
    simp only [quoteChar, startsWithS, Bool.and_eq_false_iff]
    left
    simp [hcd ▸ hq]
  have hsw2 : startsWithS (natToStr x) apostChar = false := by
    rw [hcs]
    simp only [apostChar, startsWithS, Bool.and_eq_false_iff]
    left
    simp [hcd ▸ hap]
  have hsw3 : startsWithS (natToStr x) ("[".toList) = false := by
    rw [hcs]
    simp only [startsWithS, Bool.and_eq_false_iff]
    left
    simp [hcd ▸ hbr]
  have had : allDigits (natToStr x) = true := natToStr_allDigits x
  simp only [parseVal, hsw1, hsw2, hsw3, Bool.false_and, Bool.or_self,
    Bool.false_eq_true, if_false, hrh, hsum, jsValToString, had, if_true,
    parseNat_natToStr]

/-- The value half of the parser on a rendered boolean: the literal is
coerced back to the boolean. -/
theorem parseVal_bool (fm : Fm) (k : Str) (b : Bool) (hk : keyOk k = true) :
    parseVal fm k (jsValToString (.vBool b)) = fmSet fm k (.vBool b) := by
  obtain ⟨hrh, hsum⟩ := keyOk_ne k hk
  cases b <;>
    simp +decide [parseVal, jsValToString, hrh, hsum]

/-- Splitting at a non-separator head prepends it to the first piece. -/
theorem splitOnChar_cons_ne (sep c : Char) (u : Str) (h : c ≠ sep)
    (h0 : Str) (t0 : List Str) (hsp : splitOnChar sep u = h0 :: t0) :
    splitOnChar sep (c :: u) = (c :: h0) :: t0 := by
  simp only [splitOnChar, hsp]
  simp [h]

/-- Splitting a comma-space join at commas: the first piece is intact and
each later piece carries the leading space of the separator. -/
theorem splitOnChar_joinStr (x : Str) (rest : List Str) (hx : ',' ∉ x)
    (hrest : ∀ y ∈ rest, ',' ∉ y) :
    splitOnChar ',' (joinStr (", ".toList) (x :: rest))
      = x :: rest.map (fun y => ' ' :: y) := by
  induction rest generalizing x with
  | nil => simpa [joinStr] using splitOnChar_sepFree ',' x hx
  | cons y r ih =>
    have hy : ',' ∉ y := hrest y (by simp)
    have hj : joinStr (", ".toList) (x :: y :: r)
        = x ++ ',' :: (' ' :: joinStr (", ".toList) (y :: r)) := by
      simp [joinStr]
    rw [hj, splitOnChar_append_sep ',' x _ hx]
    rw [splitOnChar_cons_ne ',' ' ' _ (by decide) _ _
      (ih y hy (fun z hz => hrest z (List.mem_cons_of_mem y hz)))]
    simp

/-- A quote-wrapped value passes the quoted test. -/
theorem wrapQ_quoted (s : Str) :
    (startsWithS (wrapQ s) quoteChar && endsWithS (wrapQ s) quoteChar)
      = true := by
  rw [Bool.and_eq_true]
  exact ⟨by simp [wrapQ, quoteChar, startsWithS],
    endsWithS_concat ('\"' :: s) '\"'⟩

/-- The quote-wrapped string neither begins nor ends with whitespace. -/
theorem wrapQ_trim (s : Str) : jsTrim (wrapQ s) = wrapQ s := by
  refine jsTrim_eq_self _ ?_ ?_
  · intro a ha
    rw [show (wrapQ s).head? = some '\"' from rfl] at ha
    simp only [Option.mem_def, Option.some.injEq] at ha
    subst ha
    decide
  · intro a ha
    have hl : (wrapQ s).getLast? = some '\"' := List.getLast?_concat _
    rw [hl] at ha
    simp only [Option.mem_def, Option.some.injEq] at ha
    rw [← ha]
    decide

/-- The one-item parser strips the quotes of a wrapped element. -/
theorem parseArrayItem_wrapQ (s : Str) :
    parseArrayItem (wrapQ s) = .pStr s := by
  unfold parseArrayItem
  rw [wrapQ_trim s]
  have hcond : ((startsWithS (wrapQ s) quoteChar
      && endsWithS (wrapQ s) quoteChar)
      || (startsWithS (wrapQ s) apostChar
      && endsWithS (wrapQ s) apostChar)) = true := by
    rw [wrapQ_quoted s, Bool.true_or]
  rw [if_pos hcond]
  rw [show sliceInner (wrapQ s) = s from sliceInner_wrap '\"' '\"' s]

/-- The one-item parser also trims the separator space of later elements. -/
theorem parseArrayItem_space_wrapQ (s : Str) :
    parseArrayItem (' ' :: wrapQ s) = .pStr s := by
  unfold parseArrayItem
  have ht : jsTrim (' ' :: wrapQ s) = wrapQ s := by
    refine jsTrim_space _ ?_ ?_
    · intro a ha
      rw [show (wrapQ s).head? = some '\"' from rfl] at ha
      simp only [Option.mem_def, Option.some.injEq] at ha
      subst ha
      decide
    · intro a ha
      have hl : (wrapQ s).getLast? = some '\"' := List.getLast?_concat _
      rw [hl] at ha
      simp only [Option.mem_def, Option.some.injEq] at ha
      rw [← ha]
      decide
  rw [ht]
  have hcond : ((startsWithS (wrapQ s) quoteChar
      && endsWithS (wrapQ s) quoteChar)
      || (startsWithS (wrapQ s) apostChar
      && endsWithS (wrapQ s) apostChar)) = true := by
    rw [wrapQ_quoted s, Bool.true_or]
  rw [if_pos hcond]
  rw [show sliceInner (wrapQ s) = s from sliceInner_wrap '\"' '\"' s]

/-- Commas stay out of a wrapped comma-free element. -/
theorem comma_not_mem_wrapQ (s : Str) (h : itemOk s = true) :
    ',' ∉ wrapQ s := by
  intro hm
  simp only [itemOk, List.all_eq_true] at h
  simp only [wrapQ] at hm
  rcases List.mem_cons.mp hm with h1 | h2
  · exact absurd h1 (by decide)
  · rcases List.mem_append.mp h2 with h3 | h4
    · have := h ',' h3
      simp at this
    · exact absurd (List.mem_singleton.mp h4) (by decide)

/-- Every character of a join comes from the separator or a piece. -/
theorem mem_joinStr : ∀ (sep : Str) (xs : List Str) (c : Char),
    c ∈ joinStr sep xs → c ∈ sep ∨ ∃ x ∈ xs, c ∈ x
  | _, [], _, h => by simp [joinStr] at h
  | _, [x], c, h => by
    simp only [joinStr] at h
    exact Or.inr ⟨x, by simp, h⟩
  | sep, x :: y :: t, c, h => by
    simp only [joinStr] at h
    rcases List.mem_append.mp h with h1 | h2
    · rcases List.mem_append.mp h1 with h3 | h4
      · exact Or.inr ⟨x, by simp, h3⟩
      · exact Or.inl h4
    · rcases mem_joinStr sep (y :: t) c h2 with h5 | ⟨z, hz, hcz⟩
      · exact Or.inl h5
      · exact Or.inr ⟨z, List.mem_cons_of_mem x hz, hcz⟩

/-- A joined quoted list starts and ends with a double quote. -/
theorem joinStr_wrapQ_shape : ∀ (s : Str) (rest : List Str),
    ∃ u, joinStr (", ".toList) ((s :: rest).map wrapQ) = '\"' :: u ++ ['\"']
  | s, [] => ⟨s, by simp [joinStr, wrapQ]⟩
  | s, y :: r => by
    obtain ⟨u, hu⟩ := joinStr_wrapQ_shape y r
    refine ⟨s ++ ['\"', ',', ' ', '\"'] ++ u, ?_⟩
    simp only [List.map_cons] at hu ⊢
    rw [show joinStr (", ".toList) (wrapQ s :: wrapQ y :: List.map wrapQ r)
      = wrapQ s ++ (", ".toList) ++ joinStr (", ".toList)
        (wrapQ y :: List.map wrapQ r) from rfl]
    rw [hu, show ((", ".toList) : Str) = [',', ' '] from rfl]
    simp [wrapQ]

/-- A string containing a comma is neither a number nor a decimal
literal. -/
theorem comma_kills (s : Str) (h : ',' ∈ s) :
    allDigits s = false ∧ decimalLit s = false := by
  constructor
  · cases hA : allDigits s
    · rfl
    · exfalso
      simp only [allDigits, Bool.and_eq_true, List.all_eq_true] at hA
      exact absurd (hA.2 ',' h) (by decide)
  · cases hD : decimalLit s
    · rfl
    · exfalso
      unfold decimalLit at hD
      split at hD
      · rename_i a b heq
        have hs2 : s = a ++ '.' :: b := by
          conv_lhs => rw [← joinChar_splitOnChar '.' s]
          rw [heq]
          simp [joinChar]
        rw [hs2] at h
        simp only [allDigits, Bool.and_eq_true, List.all_eq_true] at hD
        rcases List.mem_append.mp h with h1 | h2
        · exact absurd (hD.1.2 ',' h1) (by decide)
        · rcases List.mem_cons.mp h2 with h3 | h4
          · exact absurd h3 (by decide)
          · exact absurd (hD.2.2 ',' h4) (by decide)
      · simp at hD

/-- The value half of the parser on a rendered bracketed string list:
the items come back verbatim as a scalar array. -/
theorem parseVal_list (fm : Fm) (k : Str) (s0 : Str) (ss : List Str)
    (hk : keyOk k = true)
    (hitem : ∀ s ∈ s0 :: ss, itemOk s = true)
    (hsingle : ss = [] → (!(allDigits s0) && !(decimalLit s0)) = true) :
    parseVal fm k
        ('[' :: joinStr (", ".toList) ((s0 :: ss).map wrapQ) ++ [']'])
      = fmSet fm k (.vList ((s0 :: ss).map Prim.pStr)) := by
  obtain ⟨hrh, hsum⟩ := keyOk_ne k hk
  obtain ⟨u, hu⟩ := joinStr_wrapQ_shape s0 ss
  have hs1 : startsWithS
      ('[' :: joinStr (", ".toList) ((s0 :: ss).map wrapQ) ++ [']'])
      quoteChar = false := by
    simp [startsWithS, quoteChar]
  have hs2 : startsWithS
      ('[' :: joinStr (", ".toList) ((s0 :: ss).map wrapQ) ++ [']'])
      apostChar = false := by
    simp [startsWithS, apostChar]
  have hb : (startsWithS
      ('[' :: joinStr (", ".toList) ((s0 :: ss).map wrapQ) ++ [']'])
      ("[".toList) && endsWithS
      ('[' :: joinStr (", ".toList) ((s0 :: ss).map wrapQ) ++ [']'])
      ("]".toList)) = true := by
    rw [Bool.and_eq_true]
    exact ⟨by simp [startsWithS],
      endsWithS_concat ('[' :: joinStr (", ".toList) ((s0 :: ss).map wrapQ))
        ']'⟩
  have hslice : sliceInner
      ('[' :: joinStr (", ".toList) ((s0 :: ss).map wrapQ) ++ [']'])
      = joinStr (", ".toList) ((s0 :: ss).map wrapQ) :=
    sliceInner_wrap '[' ']' _
  have htmid : jsTrim (joinStr (", ".toList) ((s0 :: ss).map wrapQ))
      = joinStr (", ".toList) ((s0 :: ss).map wrapQ) := by
    rw [hu]
    refine jsTrim_eq_self _ ?_ ?_
    · intro a ha
      rw [show ('\"' :: u ++ ['\"']).head? = some '\"' from rfl] at ha
      simp only [Option.mem_def, Option.some.injEq] at ha
      subst ha
      decide
    · intro a ha
      rw [show ('\"' :: u ++ ['\"']) = ('\"' :: u) ++ ['\"'] from rfl,
        List.getLast?_concat] at ha
      simp only [Option.mem_def, Option.some.injEq] at ha
      subst ha
      decide
  have hmne : (joinStr (", ".toList) ((s0 :: ss).map wrapQ)).isEmpty
      = false := by
    rw [hu]
    rfl
  have hsplit : splitOnChar ','
      (joinStr (", ".toList) ((s0 :: ss).map wrapQ))
      = wrapQ s0 :: (ss.map wrapQ).map (fun y => ' ' :: y) := by
    rw [List.map_cons]
    refine splitOnChar_joinStr (wrapQ s0) (ss.map wrapQ)
      (comma_not_mem_wrapQ s0 (hitem s0 (by simp))) ?_
    intro y hy
    obtain ⟨z, hz, rfl⟩ := List.mem_map.mp hy
    exact comma_not_mem_wrapQ z (hitem z (List.mem_cons_of_mem s0 hz))
  have hmap : (splitOnChar ','
      (joinStr (", ".toList) ((s0 :: ss).map wrapQ))).map parseArrayItem
      = (s0 :: ss).map Prim.pStr := by
    rw [hsplit]
    simp only [List.map_cons, List.map_map, parseArrayItem_wrapQ]
    simp only [Function.comp_def, parseArrayItem_space_wrapQ]
  have hsv : jsValToString (.vList ((s0 :: ss).map Prim.pStr))
      = joinChar ',' (s0 :: ss) := by
    simp only [jsValToString, List.map_map, Function.comp_def,
      jsPrimToString, List.map_id_fun', List.map_id']
  have hcoerce : allDigits (joinChar ',' (s0 :: ss)) = false ∧
      decimalLit (joinChar ',' (s0 :: ss)) = false := by
    cases ss with
    | nil =>
      simp only [joinChar]
      have h2 := hsingle rfl
      simp only [Bool.and_eq_true, Bool.not_eq_true'] at h2
      exact h2
    | cons y r =>
      refine comma_kills _ ?_
      rw [joinChar_cons ',' s0 (y :: r) (by simp)]
      exact List.mem_append.mpr (Or.inr (by simp))
  simp only [parseVal, hs1, hs2, Bool.false_and, Bool.or_self,
    Bool.false_eq_true, if_false, hslice, hb, if_true, htmid, hmne, hmap,
    hrh, hsum, hsv, hcoerce.1, hcoerce.2, ite_false, ite_true]

/-- Non-whitespace characters are not newlines. -/
theorem ne_nl_of_not_ws (c : Char) (h : isWsChar c = false) : c ≠ '\n' := by
  intro he
  subst he
  exact absurd h (by decide)

/-- Membership through `head?`. -/
theorem head?_mem_of (l : Str) (a : Char) (h : a ∈ l.head?) : a ∈ l := by
  cases l with
  | nil => simp at h
  | cons c t =>
    simp only [List.head?_cons, Option.mem_def, Option.some.injEq] at h
    simp [h]

/-- The quote-wrapped string does not start with whitespace. -/
theorem wrapQ_head_ws (s : Str) :
    ∀ a ∈ (wrapQ s).head?, isWsChar a = false := by
  intro a ha
  rw [show (wrapQ s).head? = some '\"' from rfl] at ha
  simp only [Option.mem_def, Option.some.injEq] at ha
  subst ha
  decide

/-- The quote-wrapped string does not end with whitespace. -/
theorem wrapQ_last_ws (s : Str) :
    ∀ a ∈ (wrapQ s).getLast?, isWsChar a = false := by
  intro a ha
  rw [show (wrapQ s).getLast? = some '\"' from List.getLast?_concat _] at ha
  simp only [Option.mem_def, Option.some.injEq] at ha
  subst ha
  decide

/-- Rendered naturals contain no whitespace. -/
theorem natToStr_ws (x : Nat) : ∀ a ∈ natToStr x, isWsChar a = false := by
  intro a ha
  obtain ⟨d, hd, rfl⟩ := mem_natToStr x a ha
  exact (digitChar_props d hd).2.1

/-- A serialized line is well-formed whenever the key is and the value
text is newline-free. -/
theorem lineOk_of (k w : Str) (hk : keyOk k = true)
    (hw : ∀ c ∈ w, c ≠ '\n') : lineOk (k ++ ':' :: ' ' :: w) = true := by
  simp only [keyOk, Bool.and_eq_true, Bool.not_eq_true', decide_eq_true_eq,
    List.all_eq_true] at hk
  obtain ⟨⟨⟨⟨hkne, hkchars⟩, hkhead⟩, -⟩, -⟩ := hk
  cases k with
  | nil => simp at hkne
  | cons kc kr =>
    simp only [Bool.and_eq_true, decide_eq_true_eq] at hkhead
    rw [List.cons_append]
    simp only [lineOk, Bool.and_eq_true, Bool.not_eq_true',
      decide_eq_true_eq, List.all_eq_true]
    refine ⟨⟨?_, hkhead.2⟩, ?_⟩
    · exact (by simpa using hkchars kc (by simp) :
        isWsChar kc = false ∧ kc ≠ ':').1
    · intro d hd
      have hknl : ∀ c ∈ kc :: kr, (c : Char) ≠ '\n' := fun c hc =>
        ne_nl_of_not_ws c
          (by simpa using hkchars c hc : isWsChar c = false ∧ c ≠ ':').1
      rcases List.mem_cons.mp hd with rfl | hd2
      · simpa using hknl d (by simp)
      · rcases List.mem_append.mp hd2 with h3 | h4
        · simpa using hknl d (List.mem_cons_of_mem kc h3)
        · rcases List.mem_cons.mp h4 with rfl | h5
          · decide
          · rcases List.mem_cons.mp h5 with rfl | h6
            · decide
            · simpa using hw d h6

/-- A scalar array whose elements all pass the element test is a mapped
list of well-formed strings. -/
theorem all_pStr_shape : ∀ (items : List Prim),
    (items.all (fun p => match p with
      | .pStr s => itemOk s
      | _ => false)) = true →
    ∃ ss : List Str, items = ss.map Prim.pStr ∧ ∀ s ∈ ss, itemOk s = true
  | [], _ => ⟨[], rfl, by simp⟩
  | p :: t, h => by
    simp only [List.all_cons, Bool.and_eq_true] at h
    obtain ⟨ss, hss, hok⟩ := all_pStr_shape t h.2
    cases p with
    | pStr s =>
      refine ⟨s :: ss, by rw [hss]; rfl, ?_⟩
      intro z hz
      rcases List.mem_cons.mp hz with rfl | hz2
      · simpa using h.1
      · exact hok z hz2
    | pNum n => exact absurd h.1 (by simp)
    | pFlt l => exact absurd h.1 (by simp)
    | pBool b => exact absurd h.1 (by simp)

/-- One valid, quote-free mapping entry serializes to exactly one
well-formed line, and parsing that line restores the entry. -/
theorem entry_parses (k : Str) (v : Val) (hk : keyOk k = true)
    (hv : valOk v = true) (hq : quoteFree v = true) :
    ∃ line, entryLines (k, v) = [line] ∧ lineOk line = true ∧
      ∀ fm, parseLine fm line = fmSet fm k v := by
  obtain ⟨hrh, hsum⟩ := keyOk_ne k hk
  cases v with
  | vStr s =>
    have hsv : strValOk s = true := by simpa [valOk] using hv
    have hesc : escQuotes s = s := by
      refine escQuotes_eq_self s ?_
      simp only [quoteFree, List.all_eq_true] at hq
      intro c hc
      simpa using hq c hc
    refine ⟨k ++ ':' :: ' ' :: wrapQ s, ?_, ?_, ?_⟩
    · simp [entryLines, hesc, wrapQ]
    · refine lineOk_of k _ hk ?_
      intro c hc
      simp only [wrapQ] at hc
      rcases List.mem_cons.mp hc with rfl | hc2
      · decide
      · rcases List.mem_append.mp hc2 with h3 | h4
        · have hs2 := hsv
          simp only [strValOk, Bool.and_eq_true, List.all_eq_true] at hs2
          simpa using hs2.1.1.1.1.1 c h3
        · rw [List.mem_singleton.mp h4]
          decide
    · intro fm
      rw [parseLine_split fm k (wrapQ s) hk (by simp [wrapQ])
        (wrapQ_head_ws s) (wrapQ_last_ws s)]
      exact parseVal_str fm k s hk hsv
  | vNum n =>
    have hn : 0 ≤ n := by simpa [valOk] using hv
    have hint : intToStr n = natToStr n.toNat := by
      unfold intToStr
      rw [if_neg (by omega)]
    refine ⟨k ++ ':' :: ' ' :: intToStr n, ?_, ?_, ?_⟩
    · simp only [entryLines]
    · refine lineOk_of k _ hk ?_
      intro c hc
      rw [hint] at hc
      obtain ⟨d, hd, rfl⟩ := mem_natToStr _ c hc
      exact (digitChar_props d hd).2.2.2.2.2.2.2.1
    · intro fm
      rw [hint, parseLine_split fm k _ hk (natToStr_ne_nil _)
        (fun a ha => natToStr_ws _ a (head?_mem_of _ a ha))
        (fun a ha => natToStr_ws _ a (getLast?_mem_of _ a ha)),
        parseVal_num fm k n.toNat hk, Int.toNat_of_nonneg hn]
  | vFlt lit => simp [valOk] at hv
  | vBool b =>
    refine ⟨k ++ ':' :: ' ' :: jsValToString (.vBool b), ?_, ?_, ?_⟩
    · cases b <;> simp only [entryLines]
    · refine lineOk_of k _ hk ?_
      cases b <;> decide
    · intro fm
      cases b with
      | false =>
        rw [parseLine_split fm k _ hk (by decide)
          (by
            intro a ha
            rw [show (jsValToString (.vBool false)).head? = some 'f'
              from rfl] at ha
            simp only [Option.mem_def, Option.some.injEq] at ha
            subst ha
            decide)
          (by
            intro a ha
            rw [show (jsValToString (.vBool false)).getLast? = some 'e'
              from rfl] at ha
            simp only [Option.mem_def, Option.some.injEq] at ha
            subst ha
            decide)]
        exact parseVal_bool fm k false hk
      | true =>
        rw [parseLine_split fm k _ hk (by decide)
          (by
            intro a ha
            rw [show (jsValToString (.vBool true)).head? = some 't'
              from rfl] at ha
            simp only [Option.mem_def, Option.some.injEq] at ha
            subst ha
            decide)
          (by
            intro a ha
            rw [show (jsValToString (.vBool true)).getLast? = some 'e'
              from rfl] at ha
            simp only [Option.mem_def, Option.some.injEq] at ha
            subst ha
            decide)]
        exact parseVal_bool fm k true hk
  | vList items =>
    simp only [valOk, Bool.and_eq_true, Bool.not_eq_true'] at hv
    obtain ⟨⟨hne, hall⟩, hone⟩ := hv
    obtain ⟨ss, rfl, hok⟩ := all_pStr_shape items hall
    obtain ⟨s0, sst, rfl⟩ : ∃ a l, ss = a :: l := by
      cases ss with
      | nil => simp at hne
      | cons a l => exact ⟨a, l, rfl⟩
    have hrend : ((s0 :: sst).map Prim.pStr).map (fun p =>
        match p with
        | .pStr s => '\"' :: s ++ ['\"']
        | _ => jsPrimToString p) = (s0 :: sst).map wrapQ := by
      rw [List.map_map]
      rfl
    have hline : entryLines (k, .vList ((s0 :: sst).map Prim.pStr))
        = [k ++ ':' :: ' ' ::
            ('[' :: joinStr (", ".toList) ((s0 :: sst).map wrapQ) ++ [']'])] := by
      rw [List.map_cons]
      simp only [entryLines, hrh, if_false, ite_false]
      rw [← List.map_cons Prim.pStr s0 sst, hrend]
      simp
    refine ⟨_, hline, ?_, ?_⟩
    · refine lineOk_of k _ hk ?_
      intro c hc
      rcases List.mem_cons.mp hc with rfl | hc2
      · decide
      · rcases List.mem_append.mp hc2 with h3 | h4
        · rcases mem_joinStr _ _ c h3 with h5 | ⟨x, hx, hcx⟩
          · rw [show ((", ".toList) : Str) = [',', ' '] from rfl] at h5
            rcases List.mem_cons.mp h5 with rfl | h5b
            · decide
            · rw [List.mem_singleton.mp h5b]
              decide
          · obtain ⟨z, hz, rfl⟩ := List.mem_map.mp hx
            simp only [wrapQ] at hcx
            rcases List.mem_cons.mp hcx with rfl | hc3
            · decide
            · rcases List.mem_append.mp hc3 with h6 | h7
              · have := hok z hz
                simp only [itemOk, List.all_eq_true] at this
                have h8 := this c h6
                simp only [Bool.and_eq_true, decide_eq_true_eq] at h8
                exact h8.2
              · rw [List.mem_singleton.mp h7]
                decide
        · rw [List.mem_singleton.mp h4]
          decide
    · intro fm
      rw [parseLine_split fm k _ hk (by simp)
        (by
          intro a ha
          rw [show ('[' :: joinStr (", ".toList) ((s0 :: sst).map wrapQ)
            ++ [']']).head? = some '[' from rfl] at ha
          simp only [Option.mem_def, Option.some.injEq] at ha
          subst ha
          decide)
        (by
          intro a ha
          rw [show ('[' :: joinStr (", ".toList) ((s0 :: sst).map wrapQ)
            ++ [']']).getLast? = some ']' from List.getLast?_concat _] at ha
          simp only [Option.mem_def, Option.some.injEq] at ha
          subst ha
          decide),
        parseVal_list fm k s0 sst hk hok]
      intro hnil
      subst hnil
      simpa using hone
  | vRecs rs => simp [valOk] at hv

/-- Assigning an unbound key appends the binding. -/
theorem fmSet_append (fm : Fm) (k : Str) (v : Val)
    (h : ∀ kv ∈ fm, kv.1 ≠ k) : fmSet fm k v = fm ++ [(k, v)] := by
  induction fm with
  | nil => rfl
  | cons kv rest ih =>
    obtain ⟨k0, v0⟩ := kv
    simp only [fmSet]
    rw [if_neg (by simpa using h (k0, v0) (by simp)),
      ih (fun kv2 h2 => h kv2 (List.mem_cons_of_mem _ h2))]
    simp

/-- A non-empty join of non-empty pieces is non-empty. -/
theorem joinChar_ne_nil (sep : Char) (x : Str) (xs : List Str)
    (hx : x ≠ []) : joinChar sep (x :: xs) ≠ [] := by
  cases xs with
  | nil => simpa [joinChar] using hx
  | cons y r =>
    rw [joinChar_cons sep x (y :: r) (by simp)]
    simp

/-- Folding the line parser over the serialized lines of a valid mapping
appends every entry, in order, to the accumulator. -/
theorem foldl_parseLine_entries (m : Fm) : ∀ fm0 : Fm,
    (∀ kv ∈ m, keyOk kv.1 = true ∧ valOk kv.2 = true
      ∧ quoteFree kv.2 = true) →
    (∀ kv ∈ m, ∀ kv0 ∈ fm0, kv0.1 ≠ kv.1) →
    (m.map Prod.fst).Nodup →
    (m.flatMap entryLines).foldl parseLine fm0 = fm0 ++ m := by
  induction m with
  | nil =>
    intro fm0 _ _ _
    simp
  | cons kv rest ih =>
    intro fm0 hvalid hdisj hnodup
    obtain ⟨k, v⟩ := kv
    obtain ⟨hk, hv, hq⟩ := hvalid (k, v) (by simp)
    obtain ⟨line, hline, -, hparse⟩ := entry_parses k v hk hv hq
    simp only [List.map_cons, List.nodup_cons] at hnodup
    have hdisj2 : ∀ kv2 ∈ rest, ∀ kv0 ∈ fm0 ++ [(k, v)],
        kv0.1 ≠ kv2.1 := by
      intro kv2 h2 kv0 h0
      rcases List.mem_append.mp h0 with h0a | h0b
      · exact hdisj kv2 (List.mem_cons_of_mem _ h2) kv0 h0a
      · rw [List.mem_singleton.mp h0b]
        intro heq
        have hk2 : k = kv2.1 := heq
        exact hnodup.1 (hk2 ▸ List.mem_map_of_mem Prod.fst h2)
    rw [List.flatMap_cons, hline, List.foldl_append]
    simp only [List.foldl_cons, List.foldl_nil]
    rw [hparse fm0,
      fmSet_append fm0 k v (fun kv0 h0 => hdisj (k, v) (by simp) kv0 h0),
      ih (fm0 ++ [(k, v)])
        (fun kv2 h2 => hvalid kv2 (List.mem_cons_of_mem _ h2))
        hdisj2 hnodup.2]
    simp

/-- C5 amended.  For every valid header mapping whose string payloads are
free of double quotes, parsing the serialized header (followed by the
newline the caller inserts before the body) restores the mapping exactly:
`parseFrontmatter (createFrontmatter m ++ "\n") = m`.  Valid means
`validFm`: non-empty whitespace- and colon-free keys not starting with
`#` or `-`, distinct and not reserved, and values that survive the
parser's scalar coercions (strings without newlines that are not bare
number, boolean or bracket literals; non-negative integers; booleans;
non-empty lists of comma- and newline-free strings whose single element
is not a bare number literal). -/
theorem c5_roundtrip_amended (m : Fm) (h : validFm m = true)
    (hq : (m.all fun kv => quoteFree kv.2) = true) :
    parseFrontmatter (createFrontmatter m ++ ['\n']) = m := by
  cases m with
  | nil => decide
  | cons kv0 rest =>
    simp only [validFm, Bool.and_eq_true, List.all_eq_true,
      decide_eq_true_eq] at h
    obtain ⟨hvalid, hnodup⟩ := h
    simp only [List.all_eq_true] at hq
    have hvalid3 : ∀ kv ∈ kv0 :: rest, keyOk kv.1 = true
        ∧ valOk kv.2 = true ∧ quoteFree kv.2 = true := by
      intro kv hkv
      have h1 := hvalid kv hkv
      simp only [Bool.and_eq_true] at h1
      exact ⟨h1.1, h1.2, hq kv hkv⟩
    have hlines : ∀ l ∈ (kv0 :: rest).flatMap entryLines,
        lineOk l = true := by
      intro l hl
      obtain ⟨kv, hkv, hlkv⟩ := List.mem_flatMap.mp hl
      obtain ⟨hk, hv, hq2⟩ := hvalid3 kv hkv
      obtain ⟨line, hline, hok, -⟩ := entry_parses kv.1 kv.2 hk hv hq2
      rw [show entryLines kv = [line] from hline] at hlkv
      rw [List.mem_singleton.mp hlkv]
      exact hok
    obtain ⟨hk0, hv0, hq0⟩ := hvalid3 kv0 (by simp)
    obtain ⟨line0, hline0, hok0, -⟩ := entry_parses kv0.1 kv0.2 hk0 hv0 hq0
    have hL : (kv0 :: rest).flatMap entryLines
        = line0 :: rest.flatMap entryLines := by
      rw [List.flatMap_cons, show entryLines kv0 = [line0] from hline0]
      simp
    have hLne : (kv0 :: rest).flatMap entryLines ≠ [] := by
      rw [hL]
      simp
    obtain ⟨c0, r0, hc0, -, -, -⟩ := lineOk_spec line0 hok0
    have hjne : joinChar '\n' ((kv0 :: rest).flatMap entryLines) ≠ [] := by
      rw [hL]
      exact joinChar_ne_nil '\n' line0 _ (by rw [hc0]; simp)
    have hempty : (joinChar '\n'
        ((kv0 :: rest).flatMap entryLines)).isEmpty = false := by
      cases hj : joinChar '\n' ((kv0 :: rest).flatMap entryLines) with
      | nil => exact absurd hj hjne
      | cons a b => rfl
    have hfree : ∀ l ∈ (kv0 :: rest).flatMap entryLines, '\n' ∉ l := by
      intro l hl hmem
      obtain ⟨-, -, -, -, -, hnl⟩ := lineOk_spec l (hlines l hl)
      exact hnl '\n' hmem rfl
    unfold parseFrontmatter createFrontmatter
    rw [show (("---".toList : Str) :: (kv0 :: rest).flatMap entryLines)
          ++ [("---".toList : Str)]
        = ("---".toList : Str) :: ((kv0 :: rest).flatMap entryLines
          ++ [("---".toList : Str)]) from by simp,
      envExtract_create _ hLne hlines]
    show (if (joinChar '\n' ((kv0 :: rest).flatMap entryLines)).isEmpty
        then ([] : Fm)
        else (splitOnChar '\n' (joinChar '\n'
          ((kv0 :: rest).flatMap entryLines))).foldl parseLine [])
      = kv0 :: rest
    rw [hempty]
    simp only [Bool.false_eq_true, if_false]
    rw [splitOnChar_join '\n' _ hLne hfree,
      foldl_parseLine_entries (kv0 :: rest) [] hvalid3 (by simp) hnodup]
    simp

/-- C5 witness: the representative valid quote-free mapping round-trips
through the codec. -/
theorem c5_roundtrip_witness :
    validFm mValid = true ∧ (mValid.all fun kv => quoteFree kv.2) = true ∧
    parseFrontmatter (createFrontmatter mValid ++ ['\n']) = mValid :=
  ⟨by decide, by decide, c5_roundtrip_amended mValid (by decide) (by decide)⟩
